import Mathlib

/-!
Verification development for the QuickContract service (FastAPI + Gemini):
`app/contract.py` (URL validation, fetch classification, main-content
extraction, whitespace cleanup) and `app/main.py` (the `/contract`
generation endpoint).

Strings are modelled as `List Char`, matching Python's view of `str` as a
sequence of code points (`len`, slicing and `re` all operate on code
points).  Each definition is a direct translation of the corresponding
Python function; external collaborators (the HTTP response object, the
readability `Document` output, the Gemini model) are passed in as explicit
values or functions.
-/

/-- Python's Unicode whitespace predicate (`Py_UNICODE_ISSPACE`), used both
by `str.strip()` and by `\s` in `re` patterns over `str`: code points
0x9-0xd, 0x1c-0x1f, 0x20, 0x85, 0xa0, 0x1680, 0x2000-0x200a, 0x2028,
0x2029, 0x202f, 0x205f, 0x3000. -/
def isPySpace (c : Char) : Bool :=
  (0x9 ≤ c.val && c.val ≤ 0xd) || c.val = 0x1c || c.val = 0x1d || c.val = 0x1e ||
  c.val = 0x1f || c.val = 0x20 || c.val = 0x85 || c.val = 0xa0 || c.val = 0x1680 ||
  (0x2000 ≤ c.val && c.val ≤ 0x200a) || c.val = 0x2028 || c.val = 0x2029 ||
  c.val = 0x202f || c.val = 0x205f || c.val = 0x3000

/-- Python `str.lstrip()`: drop leading Unicode whitespace. -/
def pyLstrip (l : List Char) : List Char := l.dropWhile isPySpace

/-- Python `str.strip()`: drop leading and trailing Unicode whitespace. -/
def pyStrip (l : List Char) : List Char :=
  ((l.dropWhile isPySpace).reverse.dropWhile isPySpace).reverse

/-- Python `str.split(sep)` for a one-character separator: split on every
occurrence of `sep`, keeping empty segments; the result always has at
least one element (`"".split(c) == [""]`). -/
def pySplit (sep : Char) : List Char → List (List Char)
  | [] => [[]]
  | c :: rest =>
    if c = sep then [] :: pySplit sep rest
    else
      match pySplit sep rest with
      | [] => [[c]]
      | s :: ss => (c :: s) :: ss

/-- Python `'\n'.join(xs)` and friends: concatenate the segments with the
one-character separator between consecutive segments. -/
def pyJoin (sep : Char) : List (List Char) → List Char
  | [] => []
  | [x] => x
  | x :: y :: xs => x ++ sep :: pyJoin sep (y :: xs)

/-- True iff every character of the list is Python whitespace. -/
def allPySpace (l : List Char) : Bool := l.all isPySpace

/-- HTTPException from FastAPI: a status code plus a human-readable detail
message. -/
structure HTTPError where
  status : Nat
  detail : List Char
deriving DecidableEq

/-!  ## Generation orchestrator (`app/main.py`, `generate_contract`)  -/

/-- Detail of the 400 raised by `generate_contract` when the extracted
text (after `strip`) is shorter than 50 characters (main.py lines 99-103). -/
def genShortDetail : List Char :=
  "抽出されたテキストが短すぎます。有効なWebページのURLを指定してください。".data

/-- Detail of the 500 raised when the model returns no text
(main.py lines 117-121). -/
def genFailDetail : List Char :=
  "契約文の生成に失敗しました。しばらく時間をおいて再試行してください。".data

/-- The fixed instruction phrase placed between the system prompt and the
page text in the single user message (main.py line 114). -/
def genInstruction : List Char :=
  "\n\n以下のテキストから契約文を生成してください：\n\n".data

/-- Characters deleted by `re.sub(r'[\n\r\t]+', '', ...)` in
`generate_contract` (main.py line 124).  Replacing every maximal run of
these characters by the empty string is the same as deleting each one. -/
def isNlCrTab (c : Char) : Bool := c = '\n' || c = '\r' || c = '\t'

/-- Post-processing of the raw model output (main.py lines 123-131):
strip, delete newline/CR/tab characters, then if the result exceeds 60
characters try to cut at the first `。` sentence boundary when the first
sentence plus `。` fits in 60 characters. -/
def postprocessContract (raw : List Char) : List Char :=
  let contract := (pyStrip raw).filter (fun c => !isNlCrTab c)
  if 60 < contract.length then
    let sentences := pySplit '。' contract
    if 1 < sentences.length ∧ (sentences.headD [] ++ ['。']).length ≤ 60 then
      sentences.headD [] ++ ['。']
    else contract
  else contract

/-- The body of the `POST /contract` handler after extraction
(main.py lines 99-136), with the Gemini call abstracted as a function from
the sent prompt to an optional response text (`none` models a response
object whose `.text` is `None`).  Returns the handler result together with
the list of prompts actually sent to the model, so that claims about what
reaches the external model can be stated. -/
def generate_contract_core (systemPrompt mainText : List Char)
    (model : List Char → Option (List Char)) :
    Except HTTPError (List Char) × List (List Char) :=
  if mainText = [] ∨ (pyStrip mainText).length < 50 then
    (.error ⟨400, genShortDetail⟩, [])
  else
    let mainText' := if 150000 < mainText.length then mainText.take 150000 else mainText
    let prompt := systemPrompt ++ genInstruction ++ mainText'
    match model prompt with
    | none => (.error ⟨500, genFailDetail⟩, [prompt])
    | some txt =>
      if txt = [] then (.error ⟨500, genFailDetail⟩, [prompt])
      else (.ok (postprocessContract txt), [prompt])

/-- Restatement of claim C1's description of the returned contract,
written from the claim's own wording: clean the model output (strip, then
delete newline/CR/tab characters); if the cleaned form is longer than 60
characters and splitting on `。` yields at least two segments whose first
segment plus `。` has length at most 60, return that first segment plus
`。`, otherwise return the cleaned form unchanged. -/
def contractSixtyCharSpec (raw : List Char) : List Char :=
  let cleaned := (pyStrip raw).filter (fun c => !isNlCrTab c)
  if 60 < cleaned.length ∧ 2 ≤ (pySplit '。' cleaned).length ∧
      ((pySplit '。' cleaned).headD [] ++ ['。']).length ≤ 60 then
    (pySplit '。' cleaned).headD [] ++ ['。']
  else cleaned

/-!  ## URL validator (`app/contract.py`, `validate_url`)  -/

/-- Scheme and network-location components produced by `urllib.parse.urlparse`. -/
structure UrlParts where
  scheme : List Char
  netloc : List Char
deriving DecidableEq

/-- WHATWG C0-control-or-space class stripped from the front of the URL by
`urllib.parse.urlsplit` (code points 0x00 to 0x20). -/
def isC0OrSpace (c : Char) : Bool := c.val ≤ 0x20

/-- The unsafe bytes `\t`, `\r`, `\n` removed everywhere in the URL by
`urllib.parse.urlsplit`. -/
def isUnsafeUrlByte (c : Char) : Bool := c = '\t' || c = '\r' || c = '\n'

/-- Characters allowed in a URL scheme (`urllib.parse.scheme_chars`):
ASCII letters, digits, `+`, `-`, `.`. -/
def isSchemeChar (c : Char) : Bool :=
  ('a' ≤ c && c ≤ 'z') || ('A' ≤ c && c ≤ 'Z') || ('0' ≤ c && c ≤ '9') ||
  c = '+' || c = '-' || c = '.'

/-- ASCII letter test (`url[0].isascii() and url[0].isalpha()`). -/
def isAsciiAlpha (c : Char) : Bool := ('a' ≤ c && c ≤ 'z') || ('A' ≤ c && c ≤ 'Z')

/-- Model of `urllib.parse.urlparse` restricted to the scheme and netloc
components used by `validate_url`: lstrip C0 controls and spaces, delete
tab/CR/LF, split off a scheme when the part before the first `:` is a
well-formed scheme token, then take the netloc (up to the first of
`/ ? #`) when the remainder starts with `//`.  A netloc containing `[`
without `]` (or vice versa) makes `urlparse` raise `ValueError`, modelled
as `none`.  The stdlib's additional `ValueError`s for malformed bracketed
IPv6 hosts and for non-ASCII netlocs whose NFKC normalization introduces
delimiters are not modelled (they require an IPv6 parser and Unicode
normalization and only reject further exotic inputs). -/
def urlparseModel (url : List Char) : Option UrlParts :=
  let url1 := (url.dropWhile isC0OrSpace).filter (fun c => !isUnsafeUrlByte c)
  let pre := url1.takeWhile (fun c => !(c = ':'))
  let schemeRest :=
    if pre.length < url1.length ∧ 0 < pre.length ∧ isAsciiAlpha (pre.headD 'a') ∧
        pre.all isSchemeChar then
      (pre.map Char.toLower, url1.drop (pre.length + 1))
    else (([] : List Char), url1)
  let rest := schemeRest.2
  if rest.take 2 = ['/', '/'] then
    let netloc := (rest.drop 2).takeWhile (fun c => !(c = '/' || c = '?' || c = '#'))
    if ('[' ∈ netloc ∧ ']' ∉ netloc) ∨ (']' ∈ netloc ∧ '[' ∉ netloc) then none
    else some ⟨schemeRest.1, netloc⟩
  else some ⟨schemeRest.1, []⟩

/-- `validate_url` (contract.py lines 14-28): true iff parsing succeeds
with scheme `http` or `https` and a non-empty netloc; a parse exception
yields false. -/
def validate_url (url : List Char) : Bool :=
  match urlparseModel url with
  | none => false
  | some p => (p.scheme = "http".data || p.scheme = "https".data) && !p.netloc.isEmpty

/-!  ## Content fetcher classification (`app/contract.py`, `fetch_url_content`)  -/

/-- Shape of the `requests` response as seen by `fetch_url_content`:
status code, the `content-type` header (empty when absent, as
`headers.get('content-type', '')`), and the decoded text body. -/
structure HttpResponse where
  status : Nat
  contentType : List Char
  body : List Char

/-- Detail prefix of the 400 raised on a non-200 status
(contract.py lines 65-69); the observed status code is appended. -/
def fetchFailPrefix : List Char := "URLの取得に失敗しました。ステータスコード: ".data

/-- Detail of the 400 raised when the content-type is not an HTML family
(contract.py lines 73-77). -/
def notHtmlDetail : List Char := "HTMLページではありません。HTMLページのURLを指定してください。".data

/-- ASCII lower-casing as applied to the content-type header
(`content_type.lower()`; header values are ASCII in practice). -/
def lowerAscii (l : List Char) : List Char := l.map Char.toLower

/-- Python's substring test `needle in hay`, as a decidable contiguous
sublist check. -/
def containsSub (needle hay : List Char) : Bool := decide (needle <:+: hay)

/-- The HTML-family test `any(ct in content_type for ct in ['text/html',
'application/xhtml'])` (contract.py line 73). -/
def isHtmlContentType (ct : List Char) : Bool :=
  containsSub "text/html".data ct || containsSub "application/xhtml".data ct

/-- Status and content-type classification applied by `fetch_url_content`
to the fetched response (contract.py lines 62-79). -/
def classify_response (resp : HttpResponse) : Except HTTPError (List Char) :=
  if resp.status ≠ 200 then
    .error ⟨400, fetchFailPrefix ++ (Nat.repr resp.status).data⟩
  else
    let content_type := lowerAscii resp.contentType
    if !isHtmlContentType content_type then .error ⟨400, notHtmlDetail⟩
    else .ok resp.body

/-!  ## Error propagation (C8)  -/

/-- Exceptions as seen by the `try/except` blocks: an already-classified
`HTTPException` carrying status and detail, or any other exception
carrying its message (`str(e)`). -/
inductive PyExc where
  | http (e : HTTPError)
  | other (msg : List Char)
deriving DecidableEq

/-- Message prefix of the generic 500 in `fetch_url_content`
(contract.py lines 99-103). -/
def fetchUnexpectedPrefix : List Char := "予期しないエラーが発生しました: ".data

/-- Message prefix of the generic 500 in `extract_main_content`
(contract.py lines 157-161). -/
def extractErrorPrefix : List Char := "テキスト抽出中にエラーが発生しました: ".data

/-- Message prefix of the generic 500 in `generate_contract`
(main.py lines 141-146). -/
def generateErrorPrefix : List Char := "契約文生成中にエラーが発生しました: ".data

/-- The common `except HTTPException: raise / except Exception as e:
raise HTTPException(500, prefix + str(e))` pattern shared by all three
layers: a classified error passes through unchanged, an unclassified one
is wrapped into a 500 whose detail is the layer's prefix plus the
original message. -/
def handleLayer {α : Type} (p : List Char) : Except PyExc α → Except PyExc α
  | .error (.other m) => .error (.http ⟨500, p ++ m⟩)
  | r => r

/-- Exception handling of `fetch_url_content` restricted to the generic
branches (the `requests`-specific branches classify transport faults and
are upstream of this policy). -/
def fetch_url_content_handler {α : Type} : Except PyExc α → Except PyExc α :=
  handleLayer fetchUnexpectedPrefix

/-- Exception handling of `extract_main_content` (contract.py 154-161). -/
def extract_main_content_handler {α : Type} : Except PyExc α → Except PyExc α :=
  handleLayer extractErrorPrefix

/-- Exception handling of the `generate_contract` endpoint
(main.py 138-146). -/
def generate_contract_handler {α : Type} : Except PyExc α → Except PyExc α :=
  handleLayer generateErrorPrefix

/-!  ## Whitespace cleanup (`app/contract.py`, `_clean_whitespace`)

The Python function applies, in order:
1. `re.sub(r' +', ' ', text)`: replace each maximal run of ASCII spaces
   by a single space;
2. `re.sub(r'\n\s*\n\s*\n+', '\n\n', text)`: a leftmost match of this
   pattern starts at a newline whose following maximal whitespace run
   contains at least two more newlines, and (by greedy backtracking)
   extends exactly through the last newline of that run; the match is
   replaced by two newlines and scanning resumes after it;
3. split on `'\n'`, `str.strip()` each line, join with `'\n'`;
4. `str.strip()` the whole text.
-/

/-- Fuel-driven worker for `collapseSpaces`; the fuel bounds the length of
the remaining input, so the fallback for exhausted fuel is unreachable. -/
def collapseSpacesGo : Nat → List Char → List Char
  | _, [] => []
  | 0, l => l
  | fuel+1, c :: rest =>
    if c = ' ' then ' ' :: collapseSpacesGo fuel (rest.dropWhile (fun d => d = ' '))
    else c :: collapseSpacesGo fuel rest

/-- Step 1 of `_clean_whitespace`: collapse each maximal run of ASCII
spaces to a single space. -/
def collapseSpaces (l : List Char) : List Char := collapseSpacesGo l.length l

/-- Number of characters of a whitespace run up to and including its last
newline (the extent of the regex match beyond its first character). -/
def nlDropLen (run : List Char) : Nat :=
  run.length - (run.reverse.takeWhile (fun c => !(c = '\n'))).length

/-- Fuel-driven worker for `collapseNewlines`. -/
def collapseNewlinesGo : Nat → List Char → List Char
  | _, [] => []
  | 0, l => l
  | fuel+1, c :: rest =>
    if c = '\n' ∧ 2 ≤ (rest.takeWhile isPySpace).count '\n' then
      '\n' :: '\n' :: collapseNewlinesGo fuel (rest.drop (nlDropLen (rest.takeWhile isPySpace)))
    else c :: collapseNewlinesGo fuel rest

/-- Step 2 of `_clean_whitespace`: at each newline whose following
whitespace run contains at least two more newlines, replace everything
through the last newline of the run by exactly two newlines. -/
def collapseNewlines (l : List Char) : List Char := collapseNewlinesGo l.length l

/-- Step 3 of `_clean_whitespace`: strip every line. -/
def stripLines (l : List Char) : List Char :=
  pyJoin '\n' ((pySplit '\n' l).map pyStrip)

/-- `_clean_whitespace` (contract.py lines 184-205). -/
def clean_whitespace (l : List Char) : List Char :=
  pyStrip (stripLines (collapseNewlines (collapseSpaces l)))

/-!  ## Main-content extractor (`app/contract.py`, `extract_main_content`)  -/

/-- Fuel-driven worker for `stripTags`. -/
def stripTagsGo : Nat → List Char → List Char
  | _, [] => []
  | 0, l => l
  | fuel+1, c :: rest =>
    if c = '<' ∧ 0 < (rest.takeWhile (fun d => !(d = '>'))).length ∧
        (rest.takeWhile (fun d => !(d = '>'))).length < rest.length then
      stripTagsGo fuel (rest.drop ((rest.takeWhile (fun d => !(d = '>'))).length + 1))
    else c :: stripTagsGo fuel rest

/-- One pass of `re.sub(r'<[^>]+>', '', text)`: at `<`, the pattern
matches iff at least one non-`>` character follows and a `>` occurs after
them; the leftmost match runs through the first following `>`. -/
def stripTags (l : List Char) : List Char := stripTagsGo l.length l

/-- Named character references recognized by the model of
`html.unescape`.  The real function also decodes numeric references and
the rest of the HTML5 named-entity table; this restriction covers the
references exercised here and behaves identically on them. -/
def namedEntities : List (List Char × Char) :=
  [("amp;".data, '&'), ("lt;".data, '<'), ("gt;".data, '>'),
   ("quot;".data, '"'), ("apos;".data, '\'')]

/-- Look up the entity table for a reference starting right after `&`. -/
def findEntity (l : List Char) : List (List Char × Char) → Option (Char × Nat)
  | [] => none
  | (name, c) :: es => if name <+: l then some (c, name.length) else findEntity l es

/-- Fuel-driven worker for `pyUnescape`. -/
def pyUnescapeGo : Nat → List Char → List Char
  | _, [] => []
  | 0, l => l
  | fuel+1, c :: rest =>
    if c = '&' then
      match findEntity rest namedEntities with
      | some (d, n) => d :: pyUnescapeGo fuel (rest.drop n)
      | none => '&' :: pyUnescapeGo fuel rest
    else c :: pyUnescapeGo fuel rest

/-- Model of Python `html.unescape` over the `namedEntities` table. -/
def pyUnescape (l : List Char) : List Char := pyUnescapeGo l.length l

/-- `_remove_html_tags` (contract.py lines 164-181): delete every
`<[^>]+>` match, then decode HTML entities. -/
def remove_html_tags (text : List Char) : List Char := pyUnescape (stripTags text)

/-- Detail of the 400 raised when readability produced no body content
(contract.py lines 127-131). -/
def noContentDetail : List Char :=
  "ページから有効なコンテンツを抽出できませんでした。".data

/-- Detail of the 400 raised when the cleaned text is empty or shorter
than 10 characters (contract.py lines 146-150). -/
def extractShortDetail : List Char :=
  "抽出されたテキストが短すぎます。より内容のあるページを指定してください。".data

/-- `extract_main_content` (contract.py lines 106-161), parameterized by
the title and summary produced by the external readability `Document`
(`doc.title()` and `doc.summary()`), which this repository treats as an
opaque collaborator. -/
def extract_main_content (title content : List Char) : Except HTTPError (List Char) :=
  if content = [] then .error ⟨400, noContentDetail⟩
  else
    let clean_content := remove_html_tags content
    let full_text :=
      if title ≠ [] ∧ pyStrip title ≠ [] then
        remove_html_tags title ++ "\n\n".data ++ clean_content
      else clean_content
    let cleaned := clean_whitespace full_text
    if cleaned = [] ∨ (pyStrip cleaned).length < 10 then
      .error ⟨400, extractShortDetail⟩
    else .ok cleaned

/-!  ## Properties of `str.strip`  -/

/-- A list is in stripped form when it is empty or neither end is
whitespace. -/
def strippedB (l : List Char) : Bool :=
  l.isEmpty || (!isPySpace (l.headD ' ') && !isPySpace (l.getLastD ' '))

/-!  ## Survival of a prose block through the cleanup pipeline  -/

/-- A prose block: at least 10 characters, non-whitespace at both ends,
no newline, and no doubled space.  Such a block passes through
`_clean_whitespace` untouched. -/
def ProseBlock (b : List Char) : Prop :=
  10 ≤ b.length ∧ isPySpace (b.headD ' ') = false ∧
    isPySpace (b.getLastD ' ') = false ∧ '\n' ∉ b ∧ ¬ ([' ', ' '] <:+: b)

instance (b : List Char) : Decidable (ProseBlock b) := by
  unfold ProseBlock
  infer_instance

/-!  ## Claim C3  -/

instance {α β : Type} [DecidableEq α] [DecidableEq β] : DecidableEq (Except α β) :=
  fun a b =>
    match a, b with
    | .ok x, .ok y =>
      if h : x = y then .isTrue (by rw [h])
      else .isFalse (fun hc => h (by injection hc))
    | .error x, .error y =>
      if h : x = y then .isTrue (by rw [h])
      else .isFalse (fun hc => h (by injection hc))
    | .ok _, .error _ => .isFalse (fun hc => Except.noConfusion hc)
    | .error _, .ok _ => .isFalse (fun hc => Except.noConfusion hc)

/-!  ## Claim C4: idempotence of `_clean_whitespace`

The output of `_clean_whitespace` satisfies a shape invariant
(`cleanedShape`): no doubled space, whitespace adjacent to a newline only
when it is itself a newline, no run of three newlines, and stripped ends.
Each pipeline stage is the identity on inputs of this shape.
-/

/-- No two consecutive ASCII spaces. -/
def noTwoSpaces (l : List Char) : Prop := ¬ ([' ', ' '] <:+: l)

/-- Any character adjacent to a newline is a newline or non-whitespace. -/
def nlPairOk (l : List Char) : Prop :=
  (∀ c : Char, [c, '\n'] <:+: l → c = '\n' ∨ isPySpace c = false) ∧
  (∀ c : Char, ['\n', c] <:+: l → c = '\n' ∨ isPySpace c = false)

/-- No run of three consecutive newlines. -/
def noTripleNl (l : List Char) : Prop := ¬ (['\n', '\n', '\n'] <:+: l)

/-- The first character, if any, is a newline or non-whitespace. -/
def firstOk (l : List Char) : Prop :=
  l = [] ∨ l.headD ' ' = '\n' ∨ isPySpace (l.headD ' ') = false

/-- The last character, if any, is a newline or non-whitespace. -/
def lastOk (l : List Char) : Prop :=
  l = [] ∨ l.getLastD ' ' = '\n' ∨ isPySpace (l.getLastD ' ') = false

/-- The invariant satisfied by every `_clean_whitespace` output. -/
def cleanedShape (l : List Char) : Prop :=
  noTwoSpaces l ∧ nlPairOk l ∧ noTripleNl l ∧ strippedB l = true

/-!  ## Newline-run accounting for whitespace runs  -/

/-- Scanner checking that no whitespace run contains three newlines; `k`
is the number of newlines already seen in the current run. -/
def wsRunOkAux : List Char → Nat → Bool
  | [], _ => true
  | c :: rest, k =>
    if c = '\n' then decide (k + 1 < 3) && wsRunOkAux rest (k + 1)
    else if isPySpace c then wsRunOkAux rest k
    else wsRunOkAux rest 0

/-- No whitespace-only occurrence carries three newlines. -/
def noWs3 (l : List Char) : Prop :=
  ∀ w, w <:+: l → (∀ c ∈ w, isPySpace c = true) → w.count '\n' ≤ 2

/-!  ## Claims C1, C2, C7, C9  -/

/-- Claim C2: for every extracted text shorter than 50 characters, the
generation endpoint fails with status 400 and the "extracted text too
short" message, and the external model is never invoked (no prompt is
sent). -/
theorem generation_rejects_short_text (sp t : List Char)
    (model : List Char → Option (List Char)) (h : t.length < 50) :
    generate_contract_core sp t model = (.error ⟨400, genShortDetail⟩, []) := by
  have hs : (pyStrip t).length < 50 := by
    have h1 : (t.dropWhile isPySpace).length ≤ t.length :=
      (List.dropWhile_sublist isPySpace).length_le
    have h2 : (pyStrip t).length ≤ (t.dropWhile isPySpace).length := by
      unfold pyStrip
      rw [List.length_reverse]
      calc ((t.dropWhile isPySpace).reverse.dropWhile isPySpace).length
          ≤ (t.dropWhile isPySpace).reverse.length :=
            (List.dropWhile_sublist isPySpace).length_le
        _ = (t.dropWhile isPySpace).length := List.length_reverse _
    omega
  unfold generate_contract_core
  rw [if_pos (Or.inr hs)]

/-- Witness for C2 at a concrete short input. -/
theorem generation_rejects_short_text_witness :
    generate_contract_core [] "short".data (fun _ => some "x".data) =
      (.error ⟨400, genShortDetail⟩, []) :=
  generation_rejects_short_text [] "short".data (fun _ => some "x".data) (by decide)

/-- Claim C7: when the 50-character precondition passes, exactly one
prompt is sent to the model; its text part is the extracted text itself
when it has at most 150000 characters, and exactly the first 150000
characters otherwise. -/
theorem generation_truncates_at_150000 (sp t : List Char)
    (model : List Char → Option (List Char))
    (h : ¬(t = [] ∨ (pyStrip t).length < 50)) :
    (generate_contract_core sp t model).2 =
      [sp ++ genInstruction ++ (if 150000 < t.length then t.take 150000 else t)] := by
  unfold generate_contract_core
  rw [if_neg h]
  dsimp only
  cases hm : model (sp ++ genInstruction ++ (if 150000 < t.length then t.take 150000 else t)) with
  | none => rfl
  | some txt =>
    dsimp only
    by_cases hx : txt = []
    · rw [if_pos hx]
    · rw [if_neg hx]

/-- Witness for C7 at a concrete 50-character input. -/
theorem generation_truncates_at_150000_witness :
    (generate_contract_core [] (List.replicate 50 'a') (fun _ => some "x".data)).2 =
      [[] ++ genInstruction ++
        (if 150000 < (List.replicate 50 'a' : List Char).length then
          (List.replicate 50 'a' : List Char).take 150000 else List.replicate 50 'a')] :=
  generation_truncates_at_150000 [] (List.replicate 50 'a') (fun _ => some "x".data)
    (by decide)

/-- Helper: a list of Python-whitespace characters strips to the empty
list. -/
theorem pyStrip_eq_nil_of_allPySpace (l : List Char) (h : allPySpace l = true) :
    pyStrip l = [] := by
  unfold pyStrip
  have h1 : l.dropWhile isPySpace = [] := by
    apply List.dropWhile_eq_nil_iff.mpr
    intro x hx
    exact List.all_eq_true.mp h x hx
  rw [h1]
  rfl

/-- Claim C9: if the model returns a non-empty output consisting only of
whitespace, the endpoint does not take the "generation failed" branch
(which fires only for empty/absent output) but returns success with the
empty string as the contract. -/
theorem generation_whitespace_output_succeeds_empty (sp t w : List Char)
    (h : ¬(t = [] ∨ (pyStrip t).length < 50)) (hw : w ≠ [])
    (hws : allPySpace w = true) :
    (generate_contract_core sp t (fun _ => some w)).1 = .ok [] := by
  unfold generate_contract_core
  rw [if_neg h]
  simp only [if_neg hw]
  have : postprocessContract w = [] := by
    unfold postprocessContract
    rw [pyStrip_eq_nil_of_allPySpace w hws]
    rfl
  rw [this]

/-- Witness for C9: a newline-only model output yields an empty contract. -/
theorem generation_whitespace_output_succeeds_empty_witness :
    (generate_contract_core [] (List.replicate 50 'a') (fun _ => some ['\n'])).1 =
      .ok [] :=
  generation_whitespace_output_succeeds_empty [] (List.replicate 50 'a') ['\n']
    (by decide) (by decide) (by decide)

/-- Claim C1: the contract returned by the generation endpoint for a
non-empty model output `w` is exactly what the claim describes
(`contractSixtyCharSpec w`): the first sentence plus `。` when the cleaned
form exceeds 60 characters and that sentence fits, and the cleaned form
unchanged in every other case. -/
theorem generation_contract_sixty_char_rule (sp t w : List Char)
    (h : ¬(t = [] ∨ (pyStrip t).length < 50)) (hw : w ≠ []) :
    (generate_contract_core sp t (fun _ => some w)).1 =
      .ok (contractSixtyCharSpec w) := by
  have hpost : postprocessContract w = contractSixtyCharSpec w := by
    unfold postprocessContract contractSixtyCharSpec
    set cleaned := (pyStrip w).filter (fun c => !isNlCrTab c) with hc
    by_cases h60 : 60 < cleaned.length
    · rw [if_pos h60]
      by_cases hin : 1 < (pySplit '。' cleaned).length ∧
          ((pySplit '。' cleaned).headD [] ++ ['。']).length ≤ 60
      · rw [if_pos hin, if_pos ⟨h60, by omega, hin.2⟩]
      · rw [if_neg hin, if_neg (by intro hx; exact hin ⟨by omega, hx.2.2⟩)]
    · rw [if_neg h60, if_neg (by intro hx; exact h60 hx.1)]
  simp [generate_contract_core, if_neg h, hw, hpost]

/-- Witness for C1 at a concrete over-60-character model output with a
qualifying first sentence. -/
theorem generation_contract_sixty_char_rule_witness :
    (generate_contract_core [] (List.replicate 50 'a')
        (fun _ => some ("短い契約文。".data ++ List.replicate 60 'x'))).1 =
      .ok (contractSixtyCharSpec ("短い契約文。".data ++ List.replicate 60 'x')) :=
  generation_contract_sixty_char_rule [] (List.replicate 50 'a')
    ("短い契約文。".data ++ List.replicate 60 'x') (by decide) (by decide)

/-- Claim C5: the URL validator returns true if and only if the string
parses as a URL with scheme in http/https and a non-empty host component;
a parse failure is treated as invalid (false), never propagated. -/
theorem validate_url_true_iff (url : List Char) :
    validate_url url = true ↔
      ∃ p, urlparseModel url = some p ∧
        (p.scheme = "http".data ∨ p.scheme = "https".data) ∧ p.netloc ≠ [] := by
  unfold validate_url
  cases h : urlparseModel url with
  | none => simp
  | some p =>
    simp only [Option.some.injEq, Bool.and_eq_true, Bool.or_eq_true, decide_eq_true_eq,
      Bool.not_eq_true']
    constructor
    · rintro ⟨hs, hn⟩
      exact ⟨p, rfl, hs, by simpa [List.isEmpty_iff] using hn⟩
    · rintro ⟨q, hq, hs, hn⟩
      cases hq
      exact ⟨hs, by simpa [List.isEmpty_iff] using hn⟩

/-- Claim C6: the fetcher returns the raw body exactly when the status is
200 and the (lower-cased) content-type contains `text/html` or
`application/xhtml`; a non-200 status gives a 400 whose message ends with
the observed status code, and a non-HTML content-type gives the 400
"not an HTML page" error. -/
theorem fetch_classification (resp : HttpResponse) :
    (classify_response resp = .ok resp.body ↔
      resp.status = 200 ∧ isHtmlContentType (lowerAscii resp.contentType) = true) ∧
    (resp.status ≠ 200 →
      classify_response resp =
        .error ⟨400, fetchFailPrefix ++ (Nat.repr resp.status).data⟩ ∧
      (Nat.repr resp.status).data <:+ fetchFailPrefix ++ (Nat.repr resp.status).data) ∧
    (resp.status = 200 → isHtmlContentType (lowerAscii resp.contentType) = false →
      classify_response resp = .error ⟨400, notHtmlDetail⟩) := by
  unfold classify_response
  by_cases hs : resp.status = 200
  · by_cases hct : isHtmlContentType (lowerAscii resp.contentType) = true
    · refine ⟨?_, fun hne => absurd hs hne, fun _ hf => by rw [hct] at hf; cases hf⟩
      simp [hs, hct]
    · refine ⟨?_, fun hne => absurd hs hne, fun _ _ => by simp [hs, hct]⟩
      simp [hs, hct]
  · refine ⟨?_, fun _ => ⟨by simp [hs], ⟨fetchFailPrefix, rfl⟩⟩, fun h200 => absurd h200 hs⟩
    simp [hs]

/-- Witness for C6: a 404 response is classified as a 400 error carrying
the status code in its message. -/
theorem fetch_classification_witness :
    classify_response ⟨404, "text/html".data, []⟩ =
      .error ⟨400, fetchFailPrefix ++ (Nat.repr 404).data⟩ :=
  ((fetch_classification ⟨404, "text/html".data, []⟩).2.1 (by decide)).1

/-- Claim C8: a failure already classified as an HTTP error passes through
every subsequent layer unchanged (same status, same message); an
unclassified exception is wrapped into a 500 exactly once, at the layer
that first catches it, with its original message preserved as a suffix of
the new detail. -/
theorem error_propagation_policy (e : HTTPError) (m : List Char) :
    (generate_contract_handler (.error (.http e) : Except PyExc (List Char)) =
      .error (.http e)) ∧
    (generate_contract_handler (extract_main_content_handler
      (.error (.http e) : Except PyExc (List Char))) = .error (.http e)) ∧
    (generate_contract_handler (extract_main_content_handler (fetch_url_content_handler
      (.error (.http e) : Except PyExc (List Char)))) = .error (.http e)) ∧
    (generate_contract_handler (extract_main_content_handler (fetch_url_content_handler
      (.error (.other m) : Except PyExc (List Char)))) =
      .error (.http ⟨500, fetchUnexpectedPrefix ++ m⟩)) ∧
    (generate_contract_handler (extract_main_content_handler
      (.error (.other m) : Except PyExc (List Char))) =
      .error (.http ⟨500, extractErrorPrefix ++ m⟩)) ∧
    (generate_contract_handler (.error (.other m) : Except PyExc (List Char)) =
      .error (.http ⟨500, generateErrorPrefix ++ m⟩)) ∧
    m <:+ fetchUnexpectedPrefix ++ m ∧ m <:+ extractErrorPrefix ++ m ∧
    m <:+ generateErrorPrefix ++ m :=
  ⟨rfl, rfl, rfl, rfl, rfl, rfl, ⟨fetchUnexpectedPrefix, rfl⟩,
    ⟨extractErrorPrefix, rfl⟩, ⟨generateErrorPrefix, rfl⟩⟩

/-!  ## Unfolding equations for the fuel-driven workers

Each worker's fuel bounds the length of its input, so the top-level
functions satisfy the natural one-step unfolding equations.
-/

/-- Fuel irrelevance for `collapseSpacesGo`. -/
theorem collapseSpacesGo_fuel :
    ∀ (n m : Nat) (l : List Char), l.length ≤ n → l.length ≤ m →
      collapseSpacesGo n l = collapseSpacesGo m l := by
  intro n
  induction n with
  | zero =>
    intro m l hn _
    cases l with
    | nil => cases m <;> rfl
    | cons c rest => simp at hn
  | succ k ih =>
    intro m l hn hm
    cases l with
    | nil => cases m <;> rfl
    | cons c rest =>
      cases m with
      | zero => simp at hm
      | succ j =>
        simp only [collapseSpacesGo]
        simp only [List.length_cons] at hn hm
        by_cases hc : c = ' '
        · rw [if_pos hc, if_pos hc]
          have hd := (List.dropWhile_sublist (fun d => d = ' ') (l := rest)).length_le
          rw [ih j (rest.dropWhile (fun d => d = ' ')) (by omega) (by omega)]
        · rw [if_neg hc, if_neg hc, ih j rest (by omega) (by omega)]

/-- One-step unfolding of `collapseSpaces` on a cons. -/
theorem collapseSpaces_cons (c : Char) (rest : List Char) :
    collapseSpaces (c :: rest) =
      if c = ' ' then ' ' :: collapseSpaces (rest.dropWhile (fun d => d = ' '))
      else c :: collapseSpaces rest := by
  show collapseSpacesGo (c :: rest).length (c :: rest) = _
  rw [List.length_cons]
  simp only [collapseSpacesGo]
  by_cases hc : c = ' '
  · rw [if_pos hc, if_pos hc]
    have hd := (List.dropWhile_sublist (fun d => d = ' ') (l := rest)).length_le
    rw [collapseSpacesGo_fuel rest.length (rest.dropWhile (fun d => d = ' ')).length
      (rest.dropWhile (fun d => d = ' ')) (by omega) (by omega)]
    rfl
  · rw [if_neg hc, if_neg hc]
    rfl

/-- Fuel irrelevance for `collapseNewlinesGo`. -/
theorem collapseNewlinesGo_fuel :
    ∀ (n m : Nat) (l : List Char), l.length ≤ n → l.length ≤ m →
      collapseNewlinesGo n l = collapseNewlinesGo m l := by
  intro n
  induction n with
  | zero =>
    intro m l hn _
    cases l with
    | nil => cases m <;> rfl
    | cons c rest => simp at hn
  | succ k ih =>
    intro m l hn hm
    cases l with
    | nil => cases m <;> rfl
    | cons c rest =>
      cases m with
      | zero => simp at hm
      | succ j =>
        simp only [collapseNewlinesGo]
        simp only [List.length_cons] at hn hm
        by_cases hc : c = '\n' ∧ 2 ≤ (rest.takeWhile isPySpace).count '\n'
        · rw [if_pos hc, if_pos hc]
          have hd := List.length_drop (nlDropLen (rest.takeWhile isPySpace)) rest
          rw [ih j (rest.drop (nlDropLen (rest.takeWhile isPySpace))) (by omega) (by omega)]
        · rw [if_neg hc, if_neg hc, ih j rest (by omega) (by omega)]

/-- One-step unfolding of `collapseNewlines` on a cons. -/
theorem collapseNewlines_cons (c : Char) (rest : List Char) :
    collapseNewlines (c :: rest) =
      if c = '\n' ∧ 2 ≤ (rest.takeWhile isPySpace).count '\n' then
        '\n' :: '\n' :: collapseNewlines (rest.drop (nlDropLen (rest.takeWhile isPySpace)))
      else c :: collapseNewlines rest := by
  show collapseNewlinesGo (c :: rest).length (c :: rest) = _
  rw [List.length_cons]
  simp only [collapseNewlinesGo]
  by_cases hc : c = '\n' ∧ 2 ≤ (rest.takeWhile isPySpace).count '\n'
  · rw [if_pos hc, if_pos hc]
    have hd := List.length_drop (nlDropLen (rest.takeWhile isPySpace)) rest
    rw [collapseNewlinesGo_fuel rest.length
      (rest.drop (nlDropLen (rest.takeWhile isPySpace))).length
      (rest.drop (nlDropLen (rest.takeWhile isPySpace))) (by omega) (by omega)]
    rfl
  · rw [if_neg hc, if_neg hc]
    rfl

/-- Fuel irrelevance for `stripTagsGo`. -/
theorem stripTagsGo_fuel :
    ∀ (n m : Nat) (l : List Char), l.length ≤ n → l.length ≤ m →
      stripTagsGo n l = stripTagsGo m l := by
  intro n
  induction n with
  | zero =>
    intro m l hn _
    cases l with
    | nil => cases m <;> rfl
    | cons c rest => simp at hn
  | succ k ih =>
    intro m l hn hm
    cases l with
    | nil => cases m <;> rfl
    | cons c rest =>
      cases m with
      | zero => simp at hm
      | succ j =>
        simp only [stripTagsGo]
        simp only [List.length_cons] at hn hm
        by_cases hc : c = '<' ∧ 0 < (rest.takeWhile (fun d => !(d = '>'))).length ∧
            (rest.takeWhile (fun d => !(d = '>'))).length < rest.length
        · rw [if_pos hc, if_pos hc]
          have hd := List.length_drop
            ((rest.takeWhile (fun d => !(d = '>'))).length + 1) rest
          rw [ih j (rest.drop ((rest.takeWhile (fun d => !(d = '>'))).length + 1))
            (by omega) (by omega)]
        · rw [if_neg hc, if_neg hc, ih j rest (by omega) (by omega)]

/-- `stripTags` on the empty list. -/
theorem stripTags_nil : stripTags [] = [] := rfl

/-- One-step unfolding of `stripTags` on a cons. -/
theorem stripTags_cons (c : Char) (rest : List Char) :
    stripTags (c :: rest) =
      if c = '<' ∧ 0 < (rest.takeWhile (fun d => !(d = '>'))).length ∧
          (rest.takeWhile (fun d => !(d = '>'))).length < rest.length then
        stripTags (rest.drop ((rest.takeWhile (fun d => !(d = '>'))).length + 1))
      else c :: stripTags rest := by
  show stripTagsGo (c :: rest).length (c :: rest) = _
  rw [List.length_cons]
  simp only [stripTagsGo]
  by_cases hc : c = '<' ∧ 0 < (rest.takeWhile (fun d => !(d = '>'))).length ∧
      (rest.takeWhile (fun d => !(d = '>'))).length < rest.length
  · rw [if_pos hc, if_pos hc]
    have hd := List.length_drop ((rest.takeWhile (fun d => !(d = '>'))).length + 1) rest
    rw [stripTagsGo_fuel rest.length
      (rest.drop ((rest.takeWhile (fun d => !(d = '>'))).length + 1)).length
      (rest.drop ((rest.takeWhile (fun d => !(d = '>'))).length + 1)) (by omega) (by omega)]
    rfl
  · rw [if_neg hc, if_neg hc]
    rfl

/-!  ## Generic list helpers for contiguous-segment reasoning  -/

/-- Dropping as many characters as the `takeWhile` part is `dropWhile`. -/
theorem drop_takeWhile_len (p : Char → Bool) :
    ∀ l : List Char, l.drop (l.takeWhile p).length = l.dropWhile p := by
  intro l
  induction l with
  | nil => rfl
  | cons c rest ih =>
    by_cases hc : p c
    · simp [List.takeWhile_cons, List.dropWhile_cons, hc, ih]
    · simp [List.takeWhile_cons, List.dropWhile_cons, hc]

/-- Every character of a `takeWhile` satisfies the predicate. -/
theorem mem_takeWhile_pred {p : Char → Bool} :
    ∀ {l : List Char} {c : Char}, c ∈ l.takeWhile p → p c = true := by
  intro l
  induction l with
  | nil => intro c h; cases h
  | cons d rest ih =>
    intro c h
    by_cases hd : p d
    · rw [List.takeWhile_cons, if_pos hd] at h
      rcases List.mem_cons.mp h with rfl | h2
      · exact hd
      · exact ih h2
    · rw [List.takeWhile_cons, if_neg hd] at h
      cases h

/-- If `takeWhile` keeps the whole length, every character satisfies the
predicate. -/
theorem takeWhile_all {p : Char → Bool} :
    ∀ {l : List Char}, (l.takeWhile p).length = l.length → ∀ c ∈ l, p c = true := by
  intro l
  induction l with
  | nil => intro _ c h; cases h
  | cons d rest ih =>
    intro hlen c hc
    by_cases hd : p d
    · rw [List.takeWhile_cons, if_pos hd, List.length_cons, List.length_cons] at hlen
      rcases List.mem_cons.mp hc with rfl | h2
      · exact hd
      · exact ih (by omega) c h2
    · rw [List.takeWhile_cons, if_neg hd] at hlen
      simp at hlen

/-- A `dropWhile` result is empty or begins with a character failing the
predicate. -/
theorem dropWhile_head_false (p : Char → Bool) (d : Char) :
    ∀ l : List Char, l.dropWhile p = [] ∨ p ((l.dropWhile p).headD d) = false := by
  intro l
  induction l with
  | nil => exact Or.inl rfl
  | cons c rest ih =>
    by_cases hc : p c
    · rw [List.dropWhile_cons, if_pos hc]; exact ih
    · rw [List.dropWhile_cons, if_neg hc]
      exact Or.inr (by simpa using hc)

/-- A contiguous occurrence in `c :: out` is a prefix there or an
occurrence in `out`. -/
theorem sub_cons_cases {x : List Char} {c : Char} {out : List Char}
    (h : x <:+: c :: out) : x <+: c :: out ∨ x <:+: out := by
  obtain ⟨s, t, hs⟩ := h
  cases s with
  | nil => exact Or.inl ⟨t, hs⟩
  | cons a as =>
    cases hs
    exact Or.inr ⟨as, t, rfl⟩

/-- A prefix of an append is a prefix of the left part, or extends it. -/
theorem pre_append_cases {x a b : List Char} (h : x <+: a ++ b) :
    x <+: a ∨ ∃ y, x = a ++ y ∧ y <+: b := by
  induction a generalizing x with
  | nil => exact Or.inr ⟨x, rfl, h⟩
  | cons c cs ih =>
    cases x with
    | nil => exact Or.inl ⟨c :: cs, rfl⟩
    | cons e es =>
      obtain ⟨t, ht⟩ := h
      rw [List.cons_append, List.cons_append] at ht
      injection ht with h1 h2
      cases h1
      rcases ih ⟨t, h2⟩ with h3 | ⟨y, rfl, hy⟩
      · obtain ⟨u, hu⟩ := h3
        exact Or.inl ⟨u, by rw [List.cons_append, hu]⟩
      · exact Or.inr ⟨y, rfl, hy⟩

/-- Occurrences in `a ++ b` lie in `a`, lie in `b`, or straddle the
boundary (nonempty suffix of `a` followed by nonempty prefix of `b`). -/
theorem sub_append_cases {x a b : List Char} (h : x <:+: a ++ b) :
    x <:+: a ∨ x <:+: b ∨
      ∃ x₁ x₂, x = x₁ ++ x₂ ∧ x₁ ≠ [] ∧ x₂ ≠ [] ∧ x₁ <:+ a ∧ x₂ <+: b := by
  induction a generalizing x with
  | nil =>
    rw [List.nil_append] at h
    exact Or.inr (Or.inl h)
  | cons c cs ih =>
    rw [List.cons_append] at h
    rcases sub_cons_cases h with hp | hin
    · cases x with
      | nil => exact Or.inl ⟨[], c :: cs, rfl⟩
      | cons e es =>
        obtain ⟨t, ht⟩ := hp
        rw [List.cons_append] at ht
        injection ht with h1 h2
        cases h1
        rcases pre_append_cases ⟨t, h2⟩ with h3 | ⟨y, rfl, hy⟩
        · left
          obtain ⟨u, hu⟩ := h3
          exact ⟨[], u, by rw [List.nil_append, List.cons_append, hu]⟩
        · by_cases hyn : y = []
          · left
            subst hyn
            exact ⟨[], [], by simp⟩
          · exact Or.inr (Or.inr ⟨c :: cs, y, rfl, by simp, hyn, ⟨[], rfl⟩, hy⟩)
    · rcases ih hin with h1 | h2 | ⟨x₁, x₂, rfl, hn1, hn2, hs1, hp2⟩
      · left
        obtain ⟨s, t, hst⟩ := h1
        exact ⟨c :: s, t, by rw [← hst]; rfl⟩
      · exact Or.inr (Or.inl h2)
      · refine Or.inr (Or.inr ⟨x₁, x₂, rfl, hn1, hn2, ?_, hp2⟩)
        obtain ⟨s, hs⟩ := hs1
        exact ⟨c :: s, by rw [← hs]; rfl⟩

/-- Occurrence is preserved by adding a character in front. -/
theorem sub_cons_of_sub {x l : List Char} (c : Char) (h : x <:+: l) :
    x <:+: c :: l := by
  obtain ⟨s, t, rfl⟩ := h
  exact ⟨c :: s, t, rfl⟩

/-- Occurrence in the left part of an append. -/
theorem sub_append_left' {x a : List Char} (b : List Char) (h : x <:+: a) :
    x <:+: a ++ b := by
  obtain ⟨s, t, rfl⟩ := h
  exact ⟨s, t ++ b, by simp⟩

/-- Occurrence in the right part of an append. -/
theorem sub_append_right' {x b : List Char} (a : List Char) (h : x <:+: b) :
    x <:+: a ++ b := by
  obtain ⟨s, t, rfl⟩ := h
  exact ⟨a ++ s, t, by simp⟩

/-- A prefix is an occurrence. -/
theorem sub_of_pre {x l : List Char} (h : x <+: l) : x <:+: l := by
  obtain ⟨t, rfl⟩ := h
  exact ⟨[], t, rfl⟩

/-- A suffix is an occurrence. -/
theorem sub_of_suf {x l : List Char} (h : x <:+ l) : x <:+: l := by
  obtain ⟨s, rfl⟩ := h
  exact ⟨s, [], by simp⟩

/-- Occurrences compose. -/
theorem sub_trans {x y l : List Char} (h1 : x <:+: y) (h2 : y <:+: l) :
    x <:+: l := by
  obtain ⟨s, t, rfl⟩ := h1
  obtain ⟨u, v, rfl⟩ := h2
  exact ⟨u ++ s, t ++ v, by simp⟩

/-- An occurrence is no longer than its host. -/
theorem sub_len_le {x l : List Char} (h : x <:+: l) : x.length ≤ l.length := by
  obtain ⟨s, t, rfl⟩ := h
  simp
  omega

/-- Characters of an occurrence are characters of the host. -/
theorem mem_of_sub {x l : List Char} {c : Char} (h : x <:+: l) (hc : c ∈ x) :
    c ∈ l := by
  obtain ⟨s, t, rfl⟩ := h
  simp [hc]

/-- Occurrences reverse to occurrences. -/
theorem sub_reverse {x l : List Char} (h : x <:+: l) :
    x.reverse <:+: l.reverse := by
  obtain ⟨s, t, rfl⟩ := h
  exact ⟨t.reverse, s.reverse, by simp⟩

/-- An occurrence whose head fails the predicate survives `dropWhile`. -/
theorem sub_dropWhile_head {x l : List Char} {p : Char → Bool} (hx : x ≠ [])
    (hh : p (x.headD ' ') = false) (h : x <:+: l) : x <:+: l.dropWhile p := by
  induction l with
  | nil =>
    exfalso
    obtain ⟨s, t, hs⟩ := h
    have h1 := List.append_eq_nil.mp hs
    have h2 := List.append_eq_nil.mp h1.1
    exact hx h2.2
  | cons c cs ih =>
    by_cases hc : p c
    · rw [List.dropWhile_cons, if_pos hc]
      rcases sub_cons_cases h with hp | hin
      · obtain ⟨t, ht⟩ := hp
        cases x with
        | nil => exact absurd rfl hx
        | cons e es =>
          rw [List.cons_append] at ht
          injection ht with h1 _
          rw [List.headD_cons] at hh
          rw [h1] at hh
          rw [hc] at hh
          cases hh
      · exact ih hin
    · rwa [List.dropWhile_cons, if_neg hc]

/-- An occurrence with non-whitespace head survives dropping a
whitespace-only front segment. -/
theorem sub_drop_of_ws {x : List Char} (hx : x ≠ [])
    (hh : isPySpace (x.headD ' ') = false) :
    ∀ (n : Nat) (l : List Char), x <:+: l →
      (∀ c ∈ l.take n, isPySpace c = true) → x <:+: l.drop n := by
  intro n
  induction n with
  | zero => intro l h _; simpa using h
  | succ m ih =>
    intro l h hw
    cases l with
    | nil => simpa using h
    | cons c cs =>
      rw [List.drop_succ_cons]
      have hcw : isPySpace c = true := hw c (by simp)
      rcases sub_cons_cases h with hp | hin
      · obtain ⟨t, ht⟩ := hp
        cases x with
        | nil => exact absurd rfl hx
        | cons e es =>
          rw [List.cons_append] at ht
          injection ht with h1 _
          rw [List.headD_cons] at hh
          rw [h1] at hh
          rw [hcw] at hh
          cases hh
      · exact ih cs hin (fun d hd => hw d (by simp [hd]))

/-- `getLastD` ignores the default on nonempty lists after a cons. -/
theorem getLastD_cons_ne {c : Char} {l : List Char} (h : l ≠ []) (d : Char) :
    (c :: l).getLastD d = l.getLastD d := by
  cases l with
  | nil => exact absurd rfl h
  | cons e es => rfl

/-- The head of the reverse is the last element. -/
theorem headD_reverse (l : List Char) (d : Char) :
    l.reverse.headD d = l.getLastD d := by
  induction l with
  | nil => rfl
  | cons c cs ih =>
    rw [List.reverse_cons]
    cases hrev : cs.reverse with
    | nil =>
      have hcs : cs = [] := by simpa using congrArg List.reverse hrev
      subst hcs
      rfl
    | cons f fs =>
      have hne : cs ≠ [] := by
        intro hcc
        rw [hcc] at hrev
        cases hrev
      rw [getLastD_cons_ne hne d, ← ih, hrev]
      rfl

/-- A nonempty suffix shares its last element with the host. -/
theorem suf_getLastD {x l : List Char} (h : x <:+ l) (hx : x ≠ []) (d : Char) :
    x.getLastD d = l.getLastD d := by
  obtain ⟨s, rfl⟩ := h
  induction s with
  | nil => rfl
  | cons c cs ih =>
    rw [List.cons_append, getLastD_cons_ne _ d, ih]
    intro hnil
    rw [List.append_eq_nil] at hnil
    exact hx hnil.2

/-- Stripping produces a stripped-form list. -/
theorem pyStrip_stripped (l : List Char) : strippedB (pyStrip l) = true := by
  unfold pyStrip
  set x := l.dropWhile isPySpace with hx
  set y := x.reverse.dropWhile isPySpace with hy
  cases hyy : y with
  | nil => rfl
  | cons c cs =>
    rw [← hyy]
    have hyne : y ≠ [] := by rw [hyy]; simp
    have hyhead : isPySpace (y.headD ' ') = false := by
      rcases dropWhile_head_false isPySpace ' ' x.reverse with hnil | hhd
      · rw [← hy] at hnil; exact absurd hnil hyne
      · rw [← hy] at hhd; exact hhd
    have hxne : x ≠ [] := by
      intro hxx
      apply hyne
      rw [hy, hxx]
      rfl
    have hxhead : isPySpace (x.headD ' ') = false := by
      rcases dropWhile_head_false isPySpace ' ' l with hnil | hhd
      · rw [← hx] at hnil; exact absurd hnil hxne
      · rw [← hx] at hhd; exact hhd
    have hylast : y.getLastD ' ' = x.headD ' ' := by
      have h1 : y.getLastD ' ' = x.reverse.getLastD ' ' := by
        refine suf_getLastD ?_ hyne ' '
        rw [hy]
        exact List.dropWhile_suffix isPySpace
      have h2 : x.reverse.getLastD ' ' = x.headD ' ' := by
        have h3 := headD_reverse x.reverse ' '
        rw [List.reverse_reverse] at h3
        exact h3.symm
      rw [h1, h2]
    unfold strippedB
    rw [Bool.or_eq_true, Bool.and_eq_true]
    right
    constructor
    · rw [Bool.not_eq_true', headD_reverse y ' ', hylast]
      exact hxhead
    · rw [Bool.not_eq_true']
      have h3 : y.reverse.getLastD ' ' = y.headD ' ' := by
        have h4 := headD_reverse y.reverse ' '
        rw [List.reverse_reverse] at h4
        exact h4.symm
      rw [h3]
      exact hyhead

/-- `dropWhile` is the identity when the head fails the predicate. -/
theorem dropWhile_eq_self_of_head {p : Char → Bool} {l : List Char}
    (h : l ≠ [] → p (l.headD ' ') = false) : l.dropWhile p = l := by
  cases l with
  | nil => rfl
  | cons c cs =>
    rw [List.dropWhile_cons, if_neg]
    have := h (by simp)
    rw [List.headD_cons] at this
    simp [this]

/-- Stripping a stripped-form list is the identity. -/
theorem pyStrip_eq_self {l : List Char} (h : strippedB l = true) : pyStrip l = l := by
  cases l with
  | nil => rfl
  | cons c cs =>
    unfold strippedB at h
    simp only [List.isEmpty_cons, Bool.false_or, Bool.and_eq_true, Bool.not_eq_true'] at h
    unfold pyStrip
    rw [dropWhile_eq_self_of_head (fun _ => h.1)]
    rw [dropWhile_eq_self_of_head (fun _ => by rw [headD_reverse]; exact h.2)]
    rw [List.reverse_reverse]

/-- Claim C4 helper: stripping is idempotent. -/
theorem pyStrip_pyStrip (l : List Char) : pyStrip (pyStrip l) = pyStrip l :=
  pyStrip_eq_self (pyStrip_stripped l)

/-- A list stripping to the empty list is all whitespace. -/
theorem allws_of_pyStrip_nil {l : List Char} (h : pyStrip l = []) :
    ∀ c ∈ l, isPySpace c = true := by
  unfold pyStrip at h
  have h1 : (l.dropWhile isPySpace).reverse.dropWhile isPySpace = [] := by
    have := congrArg List.reverse h
    simpa using this
  have h2 : ∀ c ∈ (l.dropWhile isPySpace).reverse, isPySpace c = true :=
    List.dropWhile_eq_nil_iff.mp h1
  intro c hc
  rcases (by rw [List.takeWhile_append_dropWhile (p := isPySpace)] at *; exact hc :
      c ∈ l.takeWhile isPySpace ++ l.dropWhile isPySpace) |> List.mem_append.mp with h3 | h4
  · exact mem_takeWhile_pred h3
  · exact h2 c (List.mem_reverse.mpr h4)

/-- The stripped list occurs contiguously in the original. -/
theorem pyStrip_sub (l : List Char) : pyStrip l <:+: l := by
  unfold pyStrip
  have h1 : l.dropWhile isPySpace <:+ l := List.dropWhile_suffix isPySpace
  have h2 : (l.dropWhile isPySpace).reverse.dropWhile isPySpace <:+
      (l.dropWhile isPySpace).reverse := List.dropWhile_suffix isPySpace
  obtain ⟨s, hs⟩ := h2
  have h3 : ((l.dropWhile isPySpace).reverse.dropWhile isPySpace).reverse <+:
      l.dropWhile isPySpace := by
    refine ⟨s.reverse, ?_⟩
    have := congrArg List.reverse hs
    simpa using this
  exact sub_trans (sub_of_pre h3) (sub_of_suf h1)

/-- An occurrence with non-whitespace ends survives stripping. -/
theorem sub_pyStrip {b l : List Char} (hb : b ≠ [])
    (hh : isPySpace (b.headD ' ') = false) (hl : isPySpace (b.getLastD ' ') = false)
    (h : b <:+: l) : b <:+: pyStrip l := by
  have h1 : b <:+: l.dropWhile isPySpace := sub_dropWhile_head hb hh h
  have h2 : b.reverse <:+: (l.dropWhile isPySpace).reverse := sub_reverse h1
  have h3 : b.reverse <:+: (l.dropWhile isPySpace).reverse.dropWhile isPySpace := by
    refine sub_dropWhile_head (by simpa using hb) ?_ h2
    rw [headD_reverse]
    exact hl
  have h4 := sub_reverse h3
  rw [List.reverse_reverse] at h4
  exact h4

/-!  ## Line-splitting structure  -/

/-- The two-segment case of `pyJoin` unfolds to an append. -/
theorem pyJoin_cons_cons (sep : Char) (x y : List Char) (ys : List (List Char)) :
    pyJoin sep (x :: y :: ys) = x ++ sep :: pyJoin sep (y :: ys) := rfl

/-- One-step unfolding of `pySplit` in terms of `takeWhile`/`dropWhile`. -/
theorem pySplit_unfold (sep : Char) (l : List Char) :
    pySplit sep l = (l.takeWhile (fun c => !(c = sep))) ::
      (match l.dropWhile (fun c => !(c = sep)) with
       | [] => []
       | _ :: rest => pySplit sep rest) := by
  induction l with
  | nil => rfl
  | cons c rest ih =>
    by_cases hc : c = sep
    · rw [List.takeWhile_cons, List.dropWhile_cons, if_neg (by simp [hc]), if_neg (by simp [hc])]
      simp only [pySplit, if_pos hc]
    · rw [List.takeWhile_cons, List.dropWhile_cons, if_pos (by simp [hc]), if_pos (by simp [hc])]
      simp only [pySplit, if_neg hc]
      rw [ih]

/-- `pySplit` never returns the empty list of segments. -/
theorem pySplit_ne_nil (sep : Char) (l : List Char) : pySplit sep l ≠ [] := by
  rw [pySplit_unfold]
  simp

/-- One-step unfolding of `stripLines`. -/
theorem stripLines_unfold (l : List Char) :
    stripLines l = pyStrip (l.takeWhile (fun c => !(c = '\n'))) ++
      (match l.dropWhile (fun c => !(c = '\n')) with
       | [] => []
       | _ :: rest => '\n' :: stripLines rest) := by
  cases hd : l.dropWhile (fun c => !(c = '\n')) with
  | nil =>
    unfold stripLines
    rw [pySplit_unfold, hd]
    dsimp only
    rw [List.map_cons, List.map_nil]
    show pyStrip (l.takeWhile (fun c => !(c = '\n'))) = _
    simp
  | cons d rest =>
    unfold stripLines
    rw [pySplit_unfold, hd]
    dsimp only
    cases hsp : pySplit '\n' rest with
    | nil => exact absurd hsp (pySplit_ne_nil '\n' rest)
    | cons a as =>
      rw [List.map_cons, List.map_cons, pyJoin_cons_cons, ← List.map_cons]

/-- A block with non-space last character and no doubled space survives
space collapsing as a prefix. -/
theorem pre_collapseSpaces {b : List Char} (hl : isPySpace (b.getLastD ' ') = false)
    (hnd : ¬ ([' ', ' '] <:+: b)) :
    ∀ l : List Char, b <+: l → b <+: collapseSpaces l := by
  induction b with
  | nil => intro l _; exact ⟨collapseSpaces l, rfl⟩
  | cons x b' ih =>
    intro l hp
    obtain ⟨t, ht⟩ := hp
    cases ht
    by_cases hx : x = ' '
    · subst hx
      have hb' : b' ≠ [] := by
        intro hbe
        subst hbe
        exact absurd hl (by decide)
      have hhead : b'.headD ' ' ≠ ' ' := by
        intro hh
        apply hnd
        cases b' with
        | nil => exact absurd rfl hb'
        | cons e es =>
          rw [List.headD_cons] at hh
          subst hh
          exact ⟨[], es, by rfl⟩
      rw [List.cons_append]
      rw [collapseSpaces_cons, if_pos rfl]
      have hdw : (b' ++ t).dropWhile (fun d => d = ' ') = b' ++ t := by
        refine dropWhile_eq_self_of_head ?_
        intro _
        cases b' with
        | nil => exact absurd rfl hb'
        | cons e es =>
          rw [List.headD_cons] at hhead
          rw [List.cons_append, List.headD_cons]
          simp [hhead]
      rw [hdw]
      have hrec := ih (by rwa [getLastD_cons_ne hb' ' '] at hl)
        (fun hc => hnd (sub_cons_of_sub ' ' hc)) (b' ++ t) ⟨t, rfl⟩
      obtain ⟨u, hu⟩ := hrec
      exact ⟨u, by simp [← hu]⟩
    · rw [List.cons_append]
      rw [collapseSpaces_cons, if_neg hx]
      cases hbe : b' with
      | nil => exact ⟨collapseSpaces t, rfl⟩
      | cons e es =>
        rw [← hbe]
        have hb'l : isPySpace (b'.getLastD ' ') = false := by
          rw [← getLastD_cons_ne (c := x) (by simp [hbe]) ' ']
          exact hl
        have hrec := ih hb'l (fun hc => hnd (sub_cons_of_sub x hc)) (b' ++ t) ⟨t, rfl⟩
        obtain ⟨u, hu⟩ := hrec
        exact ⟨u, by simp [← hu]⟩

/-- A block with non-whitespace ends and no doubled space survives space
collapsing as an occurrence. -/
theorem sub_collapseSpaces {b : List Char} (hb : b ≠ [])
    (hh : isPySpace (b.headD ' ') = false) (hl : isPySpace (b.getLastD ' ') = false)
    (hnd : ¬ ([' ', ' '] <:+: b)) :
    ∀ l : List Char, b <:+: l → b <:+: collapseSpaces l := by
  intro l h
  cases l with
  | nil =>
    obtain ⟨s, t, hs⟩ := h
    have h1 := List.append_eq_nil.mp hs
    have h2 := List.append_eq_nil.mp h1.1
    exact absurd h2.2 hb
  | cons c rest =>
    rcases sub_cons_cases h with hp | hin
    · exact sub_of_pre (pre_collapseSpaces hl hnd (c :: rest) hp)
    · by_cases hc : c = ' '
      · subst hc
        rw [collapseSpaces_cons, if_pos rfl]
        have hdw : b <:+: rest.dropWhile (fun d => d = ' ') := by
          refine sub_dropWhile_head hb ?_ hin
          by_cases hhd : b.headD ' ' = ' '
          · rw [hhd] at hh
            exact absurd hh (by decide)
          · exact decide_eq_false hhd
        have hrec := sub_collapseSpaces hb hh hl hnd (rest.dropWhile (fun d => d = ' ')) hdw
        exact sub_cons_of_sub ' ' hrec
      · rw [collapseSpaces_cons, if_neg hc]
        exact sub_cons_of_sub c (sub_collapseSpaces hb hh hl hnd rest hin)
termination_by l => l.length
decreasing_by
  all_goals subst_vars
  · simp only [List.length_cons]
    have := (List.dropWhile_sublist (fun d => d = ' ') (l := rest)).length_le
    omega
  · simp only [List.length_cons]
    omega

/-- A newline-free block survives newline collapsing as a prefix. -/
theorem pre_collapseNewlines {b : List Char} (hnl : '\n' ∉ b) :
    ∀ l : List Char, b <+: l → b <+: collapseNewlines l := by
  induction b with
  | nil => intro l _; exact ⟨collapseNewlines l, rfl⟩
  | cons x b' ih =>
    intro l hp
    obtain ⟨t, ht⟩ := hp
    cases ht
    have hx : ¬ x = '\n' := fun hxe => hnl (hxe ▸ List.mem_cons_self x b')
    rw [List.cons_append]
    have hcond : ¬(x = '\n' ∧ 2 ≤ ((b' ++ t).takeWhile isPySpace).count '\n') :=
      fun hand => hx hand.1
    rw [collapseNewlines_cons, if_neg hcond]
    have hrec := ih (fun hm => hnl (List.mem_cons_of_mem x hm)) (b' ++ t) ⟨t, rfl⟩
    obtain ⟨u, hu⟩ := hrec
    exact ⟨u, by simp [← hu]⟩

/-- Characters within the `takeWhile` bound of a `take` satisfy the
predicate. -/
theorem mem_take_of_takeWhile {p : Char → Bool} :
    ∀ {l : List Char} {n : Nat}, n ≤ (l.takeWhile p).length →
      ∀ c ∈ l.take n, p c = true := by
  intro l
  induction l with
  | nil => intro n _ c hc; simp at hc
  | cons d rest ih =>
    intro n hn c hc
    by_cases hd : p d
    · rw [List.takeWhile_cons, if_pos hd, List.length_cons] at hn
      cases n with
      | zero => simp at hc
      | succ m =>
        rw [List.take_succ_cons] at hc
        rcases List.mem_cons.mp hc with rfl | h2
        · exact hd
        · exact ih (by omega) c h2
    · rw [List.takeWhile_cons, if_neg hd] at hn
      simp at hn
      subst hn
      simp at hc

/-- A block with non-whitespace ends and no newline survives newline
collapsing as an occurrence. -/
theorem sub_collapseNewlines {b : List Char} (hb : b ≠ [])
    (hh : isPySpace (b.headD ' ') = false) (hnl : '\n' ∉ b) :
    ∀ l : List Char, b <:+: l → b <:+: collapseNewlines l := by
  intro l h
  cases l with
  | nil =>
    obtain ⟨s, t, hs⟩ := h
    have h1 := List.append_eq_nil.mp hs
    have h2 := List.append_eq_nil.mp h1.1
    exact absurd h2.2 hb
  | cons c rest =>
    rcases sub_cons_cases h with hp | hin
    · exact sub_of_pre (pre_collapseNewlines hnl (c :: rest) hp)
    · by_cases hcz : c = '\n' ∧ 2 ≤ (rest.takeWhile isPySpace).count '\n'
      · rw [collapseNewlines_cons, if_pos hcz]
        have hdw : b <:+: rest.drop (nlDropLen (rest.takeWhile isPySpace)) := by
          refine sub_drop_of_ws hb hh _ rest hin ?_
          refine mem_take_of_takeWhile ?_
          unfold nlDropLen
          omega
        have hrec := sub_collapseNewlines hb hh hnl
          (rest.drop (nlDropLen (rest.takeWhile isPySpace))) hdw
        exact sub_cons_of_sub '\n' (sub_cons_of_sub '\n' hrec)
      · rw [collapseNewlines_cons, if_neg hcz]
        exact sub_cons_of_sub c (sub_collapseNewlines hb hh hnl rest hin)
termination_by l => l.length
decreasing_by
  all_goals subst_vars
  · simp only [List.length_cons, List.length_drop]
    omega
  · simp only [List.length_cons]
    omega

/-- A block with non-whitespace ends and no newline survives per-line
stripping as an occurrence. -/
theorem sub_stripLines {b : List Char} (hb : b ≠ [])
    (hh : isPySpace (b.headD ' ') = false) (hl : isPySpace (b.getLastD ' ') = false)
    (hnl : '\n' ∉ b) :
    ∀ l : List Char, b <:+: l → b <:+: stripLines l := by
  intro l h
  have hsplit : l = l.takeWhile (fun c => !(c = '\n')) ++
      l.dropWhile (fun c => !(c = '\n')) :=
    (List.takeWhile_append_dropWhile (p := fun c => !(c = '\n')) (l := l)).symm
  rw [stripLines_unfold]
  cases hd : l.dropWhile (fun c => !(c = '\n')) with
  | nil =>
    dsimp only
    rw [List.append_nil]
    refine sub_pyStrip hb hh hl ?_
    rw [hd, List.append_nil] at hsplit
    rw [← hsplit]
    exact h
  | cons d rest =>
    dsimp only
    have hdn : d = '\n' := by
      rcases dropWhile_head_false (fun c => !(c = '\n')) ' ' l with hnil | hhd
      · rw [hnil] at hd; cases hd
      · rw [hd, List.headD_cons] at hhd
        simpa using hhd
    subst hdn
    rw [hd] at hsplit
    rw [hsplit] at h
    have hlen : rest.length < l.length := by
      conv_rhs => rw [hsplit]
      simp only [List.length_append, List.length_cons]
      omega
    rcases sub_append_cases h with h1 | h2 | ⟨b₁, b₂, rfl, hn1, hn2, hs1, hp2⟩
    · exact sub_append_left' _ (sub_pyStrip hb hh hl h1)
    · rcases sub_cons_cases h2 with hp | hin
      · exfalso
        cases b with
        | nil => exact hb rfl
        | cons e es =>
          obtain ⟨t, ht⟩ := hp
          rw [List.cons_append] at ht
          injection ht with he _
          exact hnl (he ▸ List.mem_cons_self e es)
      · have hrec := sub_stripLines hb hh hl hnl rest hin
        exact sub_append_right' _ (sub_cons_of_sub '\n' hrec)
    · exfalso
      apply hnl
      cases b₂ with
      | nil => exact absurd rfl hn2
      | cons e es =>
        obtain ⟨t, ht⟩ := hp2
        rw [List.cons_append] at ht
        injection ht with he _
        exact List.mem_append.mpr (Or.inr (he ▸ List.mem_cons_self e es))
termination_by l => l.length
decreasing_by
  exact hlen

/-- A prose block survives the whole `_clean_whitespace` pipeline. -/
theorem sub_clean_whitespace {b : List Char} (hpb : ProseBlock b) :
    ∀ l : List Char, b <:+: l → b <:+: clean_whitespace l := by
  intro l h
  obtain ⟨hlen, hh, hl, hnl, hnd⟩ := hpb
  have hb : b ≠ [] := by
    intro he
    subst he
    simp at hlen
  unfold clean_whitespace
  exact sub_pyStrip hb hh hl
    (sub_stripLines hb hh hl hnl _
      (sub_collapseNewlines hb hh hnl _
        (sub_collapseSpaces hb hh hl hnd l h)))

/-!  ## Tag stripping leaves no tag  -/

/-- Characters of the tag-stripped text come from the input. -/
theorem mem_stripTags {c : Char} : ∀ l : List Char, c ∈ stripTags l → c ∈ l := by
  intro l h
  cases l with
  | nil => rw [stripTags_nil] at h; simp at h
  | cons d rest =>
    by_cases hcond : d = '<' ∧ 0 < (rest.takeWhile (fun e => !(e = '>'))).length ∧
        (rest.takeWhile (fun e => !(e = '>'))).length < rest.length
    · rw [stripTags_cons, if_pos hcond] at h
      have h2 := mem_stripTags _ h
      have h3 : c ∈ rest := (List.drop_sublist _ _).subset h2
      exact List.mem_cons_of_mem d h3
    · rw [stripTags_cons, if_neg hcond] at h
      rcases List.mem_cons.mp h with rfl | h2
      · exact List.mem_cons_self c rest
      · exact List.mem_cons_of_mem d (mem_stripTags rest h2)
termination_by l => l.length
decreasing_by
  all_goals subst_vars
  all_goals (try simp only [List.length_cons, List.length_drop])
  all_goals omega

/-- After one pass of `re.sub(r'<[^>]+>', '', ...)` no substring of the
form `<`, one or more non-`>` characters, `>` remains. -/
theorem stripTags_no_tag : ∀ (l : List Char) {a : List Char}, a ≠ [] → '>' ∉ a →
    ¬ (('<' :: (a ++ ['>'])) <:+: stripTags l) := by
  intro l a ha hgt hsub
  cases l with
  | nil =>
    rw [stripTags_nil] at hsub
    obtain ⟨s, t, hs⟩ := hsub
    simp at hs
  | cons c rest =>
    by_cases hcond : c = '<' ∧ 0 < (rest.takeWhile (fun e => !(e = '>'))).length ∧
        (rest.takeWhile (fun e => !(e = '>'))).length < rest.length
    · rw [stripTags_cons, if_pos hcond] at hsub
      exact stripTags_no_tag _ ha hgt hsub
    · rw [stripTags_cons, if_neg hcond] at hsub
      rcases sub_cons_cases hsub with hp | hin
      · obtain ⟨t, ht⟩ := hp
        rw [List.cons_append] at ht
        injection ht with h1 h2
        subst h1
        have hno : ¬(0 < (rest.takeWhile (fun e => !(e = '>'))).length ∧
            (rest.takeWhile (fun e => !(e = '>'))).length < rest.length) :=
          fun hx => hcond ⟨rfl, hx.1, hx.2⟩
        have hlenle : (rest.takeWhile (fun e => !(e = '>'))).length ≤ rest.length :=
          (List.takeWhile_sublist _).length_le
        rcases Nat.eq_zero_or_pos (rest.takeWhile (fun e => !(e = '>'))).length with hz | hpos
        · cases rest with
          | nil =>
            rw [stripTags_nil] at h2
            have h3 := List.append_eq_nil.mp h2
            simp at h3
          | cons e es =>
            have he : e = '>' := by
              by_cases hee : e = '>'
              · exact hee
              · exfalso
                rw [List.takeWhile_cons, if_pos (by simp [hee])] at hz
                simp at hz
            subst he
            have hst : stripTags ('>' :: es) = '>' :: stripTags es := by
              have hc2 : ¬(('>' : Char) = '<' ∧
                  0 < (es.takeWhile (fun e => !(e = '>'))).length ∧
                  (es.takeWhile (fun e => !(e = '>'))).length < es.length) := by
                intro hx
                exact absurd hx.1 (by decide)
              rw [stripTags_cons, if_neg hc2]
            rw [hst] at h2
            cases a with
            | nil => exact ha rfl
            | cons f fs =>
              rw [List.cons_append, List.cons_append] at h2
              injection h2 with h3 _
              exact hgt (h3 ▸ List.mem_cons_self f fs)
        · have heq : (rest.takeWhile (fun e => !(e = '>'))).length = rest.length := by
            omega
          have hall := takeWhile_all heq
          have hmem : '>' ∈ stripTags rest := by
            rw [← h2]
            exact List.mem_append.mpr (Or.inl (List.mem_append.mpr (Or.inr (by simp))))
          have := hall '>' (mem_stripTags rest hmem)
          simp at this
      · exact stripTags_no_tag rest ha hgt hin
termination_by l => l.length
decreasing_by
  all_goals subst_vars
  all_goals (try simp only [List.length_cons, List.length_drop])
  all_goals omega

/-- Claim C3 counterexample: an HTML fragment whose text contains the
escaped entity sequence `&lt;script&gt;` satisfies the claim's hypothesis
(a prose block of at least 10 characters remains after tag stripping), yet
the extractor's successful output contains the residual tag-shaped
substring `<script>`, because entity decoding runs after tag stripping and
reintroduces angle brackets.  The claimed "no residual `<...>` and no
entities" conclusion is therefore false. -/
theorem extractor_output_contains_decoded_tag :
    ProseBlock "dangerous markup in web pages".data ∧
    "dangerous markup in web pages".data <:+:
      remove_html_tags "<p>&lt;script&gt; is dangerous markup in web pages</p>".data ∧
    extract_main_content [] "<p>&lt;script&gt; is dangerous markup in web pages</p>".data =
      .ok "<script> is dangerous markup in web pages".data ∧
    ('<' :: ("script".data ++ ['>'])) <:+:
      "<script> is dangerous markup in web pages".data :=
  ⟨by decide, by decide, by decide, by decide⟩

/-- Claim C3 (amended): for every readability output whose tag-stripped,
entity-decoded content contains a prose block of at least 10 characters,
the extractor succeeds with non-empty text of length at least 10, and the
tag-stripping pass itself leaves no substring of form `<`, one or more
non-`>` characters, `>`; residual angle-bracket text in the final output
can arise only from the subsequent entity decoding. -/
theorem extractor_succeeds_and_pre_decode_tag_free (title content b : List Char)
    (hb : ProseBlock b) (hsub : b <:+: remove_html_tags content) :
    (∃ t, extract_main_content title content = .ok t ∧ t ≠ [] ∧ 10 ≤ t.length) ∧
    (∀ a : List Char, a ≠ [] → '>' ∉ a →
      ¬ (('<' :: (a ++ ['>'])) <:+: stripTags content)) := by
  constructor
  · have hcne : content ≠ [] := by
      intro hce
      subst hce
      have hrm : remove_html_tags ([] : List Char) = [] := rfl
      rw [hrm] at hsub
      obtain ⟨s, t, hs⟩ := hsub
      have h1 := List.append_eq_nil.mp hs
      have h2 := List.append_eq_nil.mp h1.1
      obtain ⟨hlen, _, _, _, _⟩ := hb
      rw [h2.2] at hlen
      simp at hlen
    have hsubfull : b <:+:
        (if title ≠ [] ∧ pyStrip title ≠ [] then
          remove_html_tags title ++ "\n\n".data ++ remove_html_tags content
        else remove_html_tags content) := by
      by_cases hti : title ≠ [] ∧ pyStrip title ≠ []
      · rw [if_pos hti]
        exact sub_append_right' _ hsub
      · rw [if_neg hti]
        exact hsub
    have hclean := sub_clean_whitespace hb _ hsubfull
    have hlen10 : 10 ≤ (clean_whitespace
        (if title ≠ [] ∧ pyStrip title ≠ [] then
          remove_html_tags title ++ "\n\n".data ++ remove_html_tags content
        else remove_html_tags content)).length :=
      le_trans hb.1 (sub_len_le hclean)
    refine ⟨_, ?_, ?_, hlen10⟩
    · unfold extract_main_content
      rw [if_neg hcne]
      dsimp only
      rw [if_neg]
      intro hor
      rcases hor with he | hlt
      · rw [he] at hlen10
        simp at hlen10
      · rw [show pyStrip (clean_whitespace
            (if title ≠ [] ∧ pyStrip title ≠ [] then
              remove_html_tags title ++ "\n\n".data ++ remove_html_tags content
            else remove_html_tags content)) = clean_whitespace
            (if title ≠ [] ∧ pyStrip title ≠ [] then
              remove_html_tags title ++ "\n\n".data ++ remove_html_tags content
            else remove_html_tags content) from by
          unfold clean_whitespace
          exact pyStrip_pyStrip _] at hlt
        omega
    · intro he
      rw [he] at hlen10
      simp at hlen10
  · intro a ha hgt
    exact stripTags_no_tag content ha hgt

/-- Witness for the amended C3 at the counterexample's concrete input. -/
theorem extractor_succeeds_and_pre_decode_tag_free_witness :
    (∃ t, extract_main_content []
        "<p>&lt;script&gt; is dangerous markup in web pages</p>".data = .ok t ∧
      t ≠ [] ∧ 10 ≤ t.length) ∧
    (∀ a : List Char, a ≠ [] → '>' ∉ a →
      ¬ (('<' :: (a ++ ['>'])) <:+:
        stripTags "<p>&lt;script&gt; is dangerous markup in web pages</p>".data)) :=
  extractor_succeeds_and_pre_decode_tag_free []
    "<p>&lt;script&gt; is dangerous markup in web pages</p>".data
    "dangerous markup in web pages".data (by decide) (by decide)

/-- `noTwoSpaces` restricts to occurrences. -/
theorem noTwoSpaces_mono {m l : List Char} (h : m <:+: l) (hn : noTwoSpaces l) :
    noTwoSpaces m := fun hc => hn (sub_trans hc h)

/-- `nlPairOk` restricts to occurrences. -/
theorem nlPairOk_mono {m l : List Char} (h : m <:+: l) (hn : nlPairOk l) :
    nlPairOk m :=
  ⟨fun c hc => hn.1 c (sub_trans hc h), fun c hc => hn.2 c (sub_trans hc h)⟩

/-- `noTripleNl` restricts to occurrences. -/
theorem noTripleNl_mono {m l : List Char} (h : m <:+: l) (hn : noTripleNl l) :
    noTripleNl m := fun hc => hn (sub_trans hc h)

/-- A stripped-form list satisfies `firstOk`. -/
theorem firstOk_of_stripped {l : List Char} (h : strippedB l = true) : firstOk l := by
  cases l with
  | nil => exact Or.inl rfl
  | cons c cs =>
    unfold strippedB at h
    simp only [List.isEmpty_cons, Bool.false_or, Bool.and_eq_true, Bool.not_eq_true'] at h
    exact Or.inr (Or.inr h.1)

/-- A stripped-form list satisfies `lastOk`. -/
theorem lastOk_of_stripped {l : List Char} (h : strippedB l = true) : lastOk l := by
  cases l with
  | nil => exact Or.inl rfl
  | cons c cs =>
    unfold strippedB at h
    simp only [List.isEmpty_cons, Bool.false_or, Bool.and_eq_true, Bool.not_eq_true'] at h
    exact Or.inr (Or.inr h.2)

/-- Space collapsing is the identity without doubled spaces. -/
theorem collapseSpaces_eq_self : ∀ {l : List Char}, noTwoSpaces l → collapseSpaces l = l := by
  intro l
  induction l with
  | nil => intro _; rfl
  | cons c rest ih =>
    intro h
    rw [collapseSpaces_cons]
    by_cases hc : c = ' '
    · subst hc
      rw [if_pos rfl]
      have hrest : rest.dropWhile (fun d => d = ' ') = rest := by
        refine dropWhile_eq_self_of_head ?_
        intro hne
        by_cases hh : rest.headD ' ' = ' '
        · exfalso
          apply h
          cases rest with
          | nil => exact absurd rfl hne
          | cons e es =>
            rw [List.headD_cons] at hh
            subst hh
            exact ⟨[], es, rfl⟩
        · exact decide_eq_false hh
      rw [hrest, ih (noTwoSpaces_mono ⟨[' '], [], by simp⟩ h)]
    · rw [if_neg hc, ih (noTwoSpaces_mono ⟨[c], [], by simp⟩ h)]

/-- Newline collapsing is the identity when newline neighborhoods are
clean and there is no triple newline. -/
theorem collapseNewlines_eq_self : ∀ {l : List Char}, nlPairOk l → noTripleNl l →
    collapseNewlines l = l := by
  intro l
  induction l with
  | nil => intro _ _; rfl
  | cons c rest ih =>
    intro hp h3
    rw [collapseNewlines_cons]
    have hcnt : ¬(c = '\n' ∧ 2 ≤ (rest.takeWhile isPySpace).count '\n') := by
      rintro ⟨rfl, h2⟩
      cases rest with
      | nil => simp at h2
      | cons d rs =>
        by_cases hd : isPySpace d = true
        · have hdn : d = '\n' := by
            rcases hp.2 d ⟨[], rs, rfl⟩ with h | h
            · exact h
            · rw [h] at hd; cases hd
          subst hdn
          cases rs with
          | nil =>
            rw [List.takeWhile_cons, if_pos (by decide), List.takeWhile_nil] at h2
            simp at h2
          | cons e es =>
            have hen : e ≠ '\n' := by
              intro he
              subst he
              exact h3 ⟨[], es, rfl⟩
            have hews : isPySpace e = false := by
              rcases hp.2 e ⟨['\n'], es, by simp⟩ with h | h
              · exact absurd h hen
              · exact h
            rw [List.takeWhile_cons, if_pos (by decide), List.takeWhile_cons,
              if_neg (by simp [hews])] at h2
            simp at h2
        · rw [List.takeWhile_cons, if_neg hd] at h2
          simp at h2
    rw [if_neg hcnt,
      ih (nlPairOk_mono ⟨[c], [], by simp⟩ hp) (noTripleNl_mono ⟨[c], [], by simp⟩ h3)]

/-- Joining the segments of a split reconstructs the original list. -/
theorem pyJoin_pySplit (sep : Char) : ∀ l : List Char, pyJoin sep (pySplit sep l) = l := by
  intro l
  induction l with
  | nil => rfl
  | cons c rest ih =>
    simp only [pySplit]
    by_cases hc : c = sep
    · rw [if_pos hc]
      cases hsp : pySplit sep rest with
      | nil => exact absurd hsp (pySplit_ne_nil sep rest)
      | cons a as =>
        rw [hsp] at ih
        rw [pyJoin_cons_cons, ih]
        simp [hc]
    · rw [if_neg hc]
      cases hsp : pySplit sep rest with
      | nil => exact absurd hsp (pySplit_ne_nil sep rest)
      | cons a as =>
        rw [hsp] at ih
        cases as with
        | nil =>
          show (c :: a : List Char) = c :: rest
          have : pyJoin sep [a] = a := rfl
          rw [this] at ih
          rw [ih]
        | cons a2 as2 =>
          show pyJoin sep ((c :: a) :: a2 :: as2) = c :: rest
          rw [pyJoin_cons_cons] at ih
          rw [pyJoin_cons_cons, List.cons_append, ih]

/-- Mapping a function that fixes every element is the identity. -/
theorem map_eq_self_of_mem {f : List Char → List Char} :
    ∀ {xs : List (List Char)}, (∀ x ∈ xs, f x = x) → xs.map f = xs := by
  intro xs
  induction xs with
  | nil => intro _; rfl
  | cons x rest ih =>
    intro h
    rw [List.map_cons, h x (by simp), ih (fun y hy => h y (by simp [hy]))]

/-- Every nonempty list is an initial part plus its last element. -/
theorem exists_concat {l : List Char} (h : l ≠ []) : ∃ init c, l = init ++ [c] := by
  cases hr : l.reverse with
  | nil =>
    exfalso
    apply h
    have := congrArg List.reverse hr
    simpa using this
  | cons c cs =>
    refine ⟨cs.reverse, c, ?_⟩
    have := congrArg List.reverse hr
    simpa using this

/-- Under the cleaned-shape conditions, every line of the split is already
in stripped form. -/
theorem lines_stripped : ∀ l : List Char, nlPairOk l → firstOk l → lastOk l →
    ∀ li ∈ pySplit '\n' l, pyStrip li = li := by
  intro l hp hf hl li hmem
  rw [pySplit_unfold] at hmem
  have hsplit : l = l.takeWhile (fun c => !(c = '\n')) ++
      l.dropWhile (fun c => !(c = '\n')) :=
    (List.takeWhile_append_dropWhile (p := fun c => !(c = '\n')) (l := l)).symm
  have hline_nonl : ∀ c ∈ l.takeWhile (fun c => !(c = '\n')), c ≠ '\n' := by
    intro c hc
    have := mem_takeWhile_pred hc
    simpa using this
  cases hd : l.dropWhile (fun c => !(c = '\n')) with
  | nil =>
    rw [hd] at hmem hsplit
    rw [List.append_nil] at hsplit
    have hli : li = l.takeWhile (fun c => !(c = '\n')) := by
      simpa using hmem
    subst hli
    rw [← hsplit]
    by_cases hle : l = []
    · subst hle; rfl
    · refine pyStrip_eq_self ?_
      unfold strippedB
      cases l with
      | nil => rfl
      | cons c cs =>
        simp only [List.isEmpty_cons, Bool.false_or, Bool.and_eq_true, Bool.not_eq_true']
        constructor
        · rcases hf with he | hn | hok
          · cases he
          · exfalso
            refine hline_nonl c ?_ ?_
            · rw [← hsplit]; simp
            · rw [List.headD_cons] at hn; exact hn
          · exact hok
        · rcases hl with he | hn | hok
          · cases he
          · exfalso
            obtain ⟨init, d, hcat⟩ := exists_concat (l := c :: cs) (by simp)
            refine hline_nonl d ?_ ?_
            · rw [← hsplit, hcat]; simp
            · rw [hcat, List.getLastD_concat] at hn; exact hn
          · exact hok
  | cons d rest =>
    have hdn : d = '\n' := by
      rcases dropWhile_head_false (fun c => !(c = '\n')) ' ' l with hnil | hhd
      · rw [hnil] at hd; cases hd
      · rw [hd, List.headD_cons] at hhd
        simpa using hhd
    subst hdn
    rw [hd] at hmem hsplit
    rcases List.mem_cons.mp hmem with heq | hmem2
    · have hli_nonl : ∀ c ∈ li, c ≠ '\n' := by
        rw [heq]
        exact hline_nonl
      have hsplit2 : l = li ++ '\n' :: rest := by
        rw [heq]
        exact hsplit
      by_cases hle : li = []
      · subst hle; rfl
      · refine pyStrip_eq_self ?_
        unfold strippedB
        cases hcase : li with
        | nil => rfl
        | cons c cs =>
          subst hcase
          simp only [List.isEmpty_cons, Bool.false_or, Bool.and_eq_true,
            Bool.not_eq_true']
          constructor
          · rcases hf with he | hn | hok
            · rw [he] at hsplit2
              simp at hsplit2
            · exfalso
              refine hli_nonl c (by simp) ?_
              rw [hsplit2, List.cons_append, List.headD_cons] at hn
              exact hn
            · rw [hsplit2, List.cons_append, List.headD_cons] at hok
              rw [List.headD_cons]
              exact hok
          · obtain ⟨init, e, hcat⟩ := exists_concat (l := c :: cs) (by simp)
            have hpair : [e, '\n'] <:+: l :=
              ⟨init, rest, by rw [hsplit2, hcat]; simp⟩
            rcases hp.1 e hpair with hen | hews
            · exact absurd hen (by
                have := hli_nonl e (by rw [hcat]; simp)
                exact fun hx => this hx)
            · rw [hcat, List.getLastD_concat]
              exact hews
    · have hrest_sub : rest <:+: l := by
        rw [hsplit]
        exact ⟨l.takeWhile (fun c => !(c = '\n')) ++ ['\n'], [], by simp⟩
      have hrp : nlPairOk rest := nlPairOk_mono hrest_sub hp
      have hrf : firstOk rest := by
        cases hre : rest with
        | nil => exact Or.inl rfl
        | cons e es =>
          have hpair : ['\n', e] <:+: l := by
            rw [hsplit, hre]
            exact ⟨l.takeWhile (fun c => !(c = '\n')), es, by simp⟩
          rcases hp.2 e hpair with hen | hews
          · exact Or.inr (Or.inl (by rw [List.headD_cons]; exact hen))
          · exact Or.inr (Or.inr (by rw [List.headD_cons]; exact hews))
      have hrl : lastOk rest := by
        cases hre : rest with
        | nil => exact Or.inl rfl
        | cons e es =>
          have hsuf : rest <:+ l := by
            rw [hsplit]
            exact ⟨l.takeWhile (fun c => !(c = '\n')) ++ ['\n'], by simp⟩
          have := suf_getLastD hsuf (by simp [hre]) ' '
          rw [← hre] at *
          rcases hl with he | hn | hok
          · rw [he] at hsplit
            rw [hre] at hsplit
            simp at hsplit
          · exact Or.inr (Or.inl (by rw [this]; exact hn))
          · exact Or.inr (Or.inr (by rw [this]; exact hok))
      have hlen : rest.length < l.length := by
        conv_rhs => rw [hsplit]
        simp only [List.length_append, List.length_cons]
        omega
      exact lines_stripped rest hrp hrf hrl li hmem2
termination_by l => l.length
decreasing_by
  exact hlen

/-- Per-line stripping is the identity under the cleaned-shape conditions. -/
theorem stripLines_eq_self {l : List Char} (hp : nlPairOk l) (hf : firstOk l)
    (hl : lastOk l) : stripLines l = l := by
  unfold stripLines
  rw [map_eq_self_of_mem (lines_stripped l hp hf hl), pyJoin_pySplit]

/-- `_clean_whitespace` is the identity on cleaned-shape inputs. -/
theorem clean_whitespace_eq_self {l : List Char} (h : cleanedShape l) :
    clean_whitespace l = l := by
  obtain ⟨h1, h2, h3, h4⟩ := h
  unfold clean_whitespace
  rw [collapseSpaces_eq_self h1, collapseNewlines_eq_self h2 h3,
    stripLines_eq_self h2 (firstOk_of_stripped h4) (lastOk_of_stripped h4),
    pyStrip_eq_self h4]

/-- `collapseSpaces` preserves the head character. -/
theorem collapseSpaces_headD (l : List Char) (d : Char) :
    (collapseSpaces l).headD d = l.headD d := by
  cases l with
  | nil => rfl
  | cons c rest =>
    rw [collapseSpaces_cons]
    by_cases hc : c = ' '
    · rw [if_pos hc]
      simp [List.headD_cons, hc]
    · rw [if_neg hc]
      simp [List.headD_cons]

/-- `collapseNewlines` preserves the head character. -/
theorem collapseNewlines_headD (l : List Char) (d : Char) :
    (collapseNewlines l).headD d = l.headD d := by
  cases l with
  | nil => rfl
  | cons c rest =>
    rw [collapseNewlines_cons]
    by_cases hc : c = '\n' ∧ 2 ≤ (rest.takeWhile isPySpace).count '\n'
    · rw [if_pos hc]
      simp [List.headD_cons, hc.1]
    · rw [if_neg hc]
      simp [List.headD_cons]

/-- Space collapsing leaves no doubled space. -/
theorem collapseSpaces_noDouble : ∀ l : List Char, noTwoSpaces (collapseSpaces l) := by
  intro l hsub
  cases l with
  | nil =>
    obtain ⟨s, t, hs⟩ := hsub
    simp [show collapseSpaces ([] : List Char) = [] from rfl] at hs
  | cons c rest =>
    rw [collapseSpaces_cons] at hsub
    by_cases hc : c = ' '
    · rw [if_pos hc] at hsub
      rcases sub_cons_cases hsub with hp | hin
      · obtain ⟨t, ht⟩ := hp
        injection ht with h1 h2
        rcases dropWhile_head_false (fun d => d = ' ') ' ' rest with hnil | hhd
        · rw [hnil, show collapseSpaces ([] : List Char) = [] from rfl] at h2
          cases h2
        · have hh := collapseSpaces_headD (rest.dropWhile (fun d => d = ' ')) ' '
          rw [← h2] at hh
          simp only [List.append_eq, List.cons_append, List.nil_append,
            List.headD_cons] at hh
          rw [← hh] at hhd
          simp at hhd
      · exact collapseSpaces_noDouble (rest.dropWhile (fun d => d = ' ')) hin
    · rw [if_neg hc] at hsub
      rcases sub_cons_cases hsub with hp | hin
      · obtain ⟨t, ht⟩ := hp
        injection ht with h1 _
        exact hc h1.symm
      · exact collapseSpaces_noDouble rest hin
termination_by l => l.length
decreasing_by
  all_goals subst_vars
  all_goals (try simp only [List.length_cons])
  · have := (List.dropWhile_sublist (fun d => d = ' ') (l := rest)).length_le
    omega
  · omega

/-- Newline collapsing preserves the absence of doubled spaces. -/
theorem collapseNewlines_noDouble : ∀ l : List Char, noTwoSpaces l →
    noTwoSpaces (collapseNewlines l) := by
  intro l h hsub
  cases l with
  | nil =>
    obtain ⟨s, t, hs⟩ := hsub
    simp [show collapseNewlines ([] : List Char) = [] from rfl] at hs
  | cons c rest =>
    rw [collapseNewlines_cons] at hsub
    by_cases hcz : c = '\n' ∧ 2 ≤ (rest.takeWhile isPySpace).count '\n'
    · rw [if_pos hcz] at hsub
      rcases sub_cons_cases hsub with hp | hin
      · obtain ⟨t, ht⟩ := hp
        injection ht with h1 _
        cases h1
      · rcases sub_cons_cases hin with hp2 | hin2
        · obtain ⟨t, ht⟩ := hp2
          injection ht with h1 _
          cases h1
        · have hdropsub : rest.drop (nlDropLen (rest.takeWhile isPySpace)) <:+: c :: rest := by
            refine sub_cons_of_sub c (sub_of_suf ?_)
            exact List.drop_suffix _ _
          exact collapseNewlines_noDouble (rest.drop (nlDropLen (rest.takeWhile isPySpace)))
            (noTwoSpaces_mono hdropsub h) hin2
    · rw [if_neg hcz] at hsub
      rcases sub_cons_cases hsub with hp | hin
      · obtain ⟨t, ht⟩ := hp
        injection ht with h1 h2
        subst h1
        cases hre : rest with
        | nil =>
          rw [hre, show collapseNewlines ([] : List Char) = [] from rfl] at h2
          cases h2
        | cons e es =>
          have hh := collapseNewlines_headD rest ' '
          rw [← h2] at hh
          simp only [List.append_eq, List.cons_append, List.nil_append,
            List.headD_cons] at hh
          rw [hre, List.headD_cons] at hh
          apply h
          rw [hre, ← hh]
          exact ⟨[], es, rfl⟩
      · exact collapseNewlines_noDouble rest (noTwoSpaces_mono ⟨[c], [], by simp⟩ h) hin
termination_by l => l.length
decreasing_by
  all_goals subst_vars
  all_goals (try simp only [List.length_cons, List.length_drop])
  all_goals omega

/-- Taking up to the `takeWhile` length recovers the `takeWhile`. -/
theorem take_len_takeWhile (p : Char → Bool) :
    ∀ l : List Char, l.take (l.takeWhile p).length = l.takeWhile p := by
  intro l
  induction l with
  | nil => rfl
  | cons c rest ih =>
    by_cases hc : p c
    · rw [List.takeWhile_cons, if_pos hc, List.length_cons, List.take_succ_cons, ih]
    · rw [List.takeWhile_cons, if_neg hc]
      rfl

/-- A `takeWhile` right after the matching `dropWhile` is empty. -/
theorem takeWhile_dropWhile_nil (p : Char → Bool) (l : List Char) :
    (l.dropWhile p).takeWhile p = [] := by
  rcases dropWhile_head_false p ' ' l with hnil | hhd
  · rw [hnil]; rfl
  · cases hd : l.dropWhile p with
    | nil => rfl
    | cons c cs =>
      rw [hd, List.headD_cons] at hhd
      rw [List.takeWhile_cons, if_neg (by simp [hhd])]

/-- `takeWhile` passes over a block that satisfies the predicate. -/
theorem takeWhile_append_all {p : Char → Bool} :
    ∀ {xs : List Char} (ys : List Char), (∀ c ∈ xs, p c = true) →
      (xs ++ ys).takeWhile p = xs ++ ys.takeWhile p := by
  intro xs
  induction xs with
  | nil => intro ys _; rfl
  | cons c rest ih =>
    intro ys h
    rw [List.cons_append, List.takeWhile_cons, if_pos (h c (by simp)),
      ih ys (fun d hd => h d (by simp [hd])), List.cons_append]

/-- The part of a whitespace run after its last newline contains no
newline and only whitespace, and the drop reaches exactly that part. -/
theorem drop_nlDropLen (run : List Char) :
    run.drop (nlDropLen run) = (run.reverse.takeWhile (fun c => !(c = '\n'))).reverse := by
  unfold nlDropLen
  have hlen : (run.reverse.takeWhile (fun c => !(c = '\n'))).length ≤ run.length := by
    have := (List.takeWhile_sublist (l := run.reverse) (fun c => !(c = '\n'))).length_le
    rw [List.length_reverse] at this
    exact this
  have h1 : run.reverse.take ((run.reverse.takeWhile (fun c => !(c = '\n'))).length) =
      run.reverse.takeWhile (fun c => !(c = '\n')) := take_len_takeWhile _ _
  have h2 := List.reverse_take
    (l := run.reverse) (n := (run.reverse.takeWhile (fun c => !(c = '\n'))).length)
  rw [h1] at h2
  rw [List.reverse_reverse, List.length_reverse] at h2
  rw [← h2]

/-- After a newline-collapsing replacement, the next whitespace run
contains no newline. -/
theorem count_after_nlDrop (rest : List Char) :
    ((rest.drop (nlDropLen (rest.takeWhile isPySpace))).takeWhile isPySpace).count '\n'
      = 0 := by
  set run := rest.takeWhile isPySpace with hrun
  have hsplit : rest = run ++ rest.dropWhile isPySpace := by
    rw [hrun]
    exact (List.takeWhile_append_dropWhile (p := isPySpace) (l := rest)).symm
  have hn_le : nlDropLen run ≤ run.length := Nat.sub_le _ _
  have hdrop : rest.drop (nlDropLen run) =
      run.drop (nlDropLen run) ++ rest.dropWhile isPySpace := by
    conv_lhs => rw [hsplit]
    exact List.drop_append_of_le_length hn_le
  rw [hdrop, drop_nlDropLen]
  have hallws : ∀ c ∈ (run.reverse.takeWhile (fun c => !(c = '\n'))).reverse,
      isPySpace c = true := by
    intro c hc
    rw [List.mem_reverse] at hc
    have h1 : c ∈ run.reverse := (List.takeWhile_sublist _).subset hc
    rw [List.mem_reverse] at h1
    exact mem_takeWhile_pred (hrun ▸ h1)
  rw [takeWhile_append_all _ hallws, takeWhile_dropWhile_nil, List.append_nil]
  rw [List.count_eq_zero]
  intro hmem
  rw [List.mem_reverse] at hmem
  have := mem_takeWhile_pred hmem
  simp at this

/-- Main accounting lemma: newline collapsing yields a scan-clean list.
The budget `k` plus the (capped) newline count of the leading whitespace
run never exceeds two. -/
theorem collapseNewlines_wsRunOk : ∀ (l : List Char) (k : Nat),
    k + min 2 ((l.takeWhile isPySpace).count '\n') ≤ 2 →
    wsRunOkAux (collapseNewlines l) k = true := by
  intro l k h
  cases l with
  | nil => rfl
  | cons c rest =>
    rw [collapseNewlines_cons]
    by_cases hcz : c = '\n' ∧ 2 ≤ (rest.takeWhile isPySpace).count '\n'
    · rw [if_pos hcz]
      obtain ⟨hc1, hc2⟩ := hcz
      subst hc1
      have hcc : (('\n' :: rest).takeWhile isPySpace).count '\n' =
          (rest.takeWhile isPySpace).count '\n' + 1 := by
        rw [List.takeWhile_cons, if_pos (by decide), List.count_cons]
        simp
      rw [hcc] at h
      have hk : k = 0 := by omega
      subst hk
      show (decide (0 + 1 < 3) && wsRunOkAux ('\n' :: collapseNewlines
        (rest.drop (nlDropLen (rest.takeWhile isPySpace)))) (0 + 1)) = true
      rw [Bool.and_eq_true]
      refine ⟨by decide, ?_⟩
      show (decide (1 + 1 < 3) && wsRunOkAux (collapseNewlines
        (rest.drop (nlDropLen (rest.takeWhile isPySpace)))) (1 + 1)) = true
      rw [Bool.and_eq_true]
      refine ⟨by decide, ?_⟩
      refine collapseNewlines_wsRunOk _ 2 ?_
      rw [count_after_nlDrop]
      simp
    · rw [if_neg hcz]
      by_cases hcn : c = '\n'
      · subst hcn
        have hcnt : (rest.takeWhile isPySpace).count '\n' ≤ 1 := by
          by_cases h2 : 2 ≤ (rest.takeWhile isPySpace).count '\n'
          · exact absurd ⟨rfl, h2⟩ hcz
          · omega
        have hcc : (('\n' :: rest).takeWhile isPySpace).count '\n' =
            (rest.takeWhile isPySpace).count '\n' + 1 := by
          rw [List.takeWhile_cons, if_pos (by decide), List.count_cons]
          simp
        rw [hcc] at h
        show (decide (k + 1 < 3) && wsRunOkAux (collapseNewlines rest) (k + 1)) = true
        rw [Bool.and_eq_true]
        constructor
        · simp
          omega
        · refine collapseNewlines_wsRunOk rest (k + 1) ?_
          omega
      · by_cases hws : isPySpace c = true
        · rw [List.takeWhile_cons, if_pos hws] at h
          have hcc : (c :: rest.takeWhile isPySpace).count '\n' =
              (rest.takeWhile isPySpace).count '\n' := by
            simp [List.count_cons, hcn]
          rw [hcc] at h
          show wsRunOkAux (c :: collapseNewlines rest) k = true
          unfold wsRunOkAux
          rw [if_neg hcn, if_pos hws]
          exact collapseNewlines_wsRunOk rest k h
        · show wsRunOkAux (c :: collapseNewlines rest) k = true
          unfold wsRunOkAux
          rw [if_neg hcn, if_neg (by simpa using hws)]
          refine collapseNewlines_wsRunOk rest 0 ?_
          omega
termination_by l => l.length
decreasing_by
  all_goals subst_vars
  all_goals (try simp only [List.length_cons, List.length_drop])
  all_goals omega

/-- The scanner accepts with any smaller budget. -/
theorem wsRunOkAux_mono : ∀ {l : List Char} {k k2 : Nat}, wsRunOkAux l k = true →
    k2 ≤ k → wsRunOkAux l k2 = true := by
  intro l
  induction l with
  | nil => intro k k2 _ _; rfl
  | cons c rest ih =>
    intro k k2 h hle
    unfold wsRunOkAux at h ⊢
    by_cases hc : c = '\n'
    · rw [if_pos hc] at h ⊢
      rw [Bool.and_eq_true] at h ⊢
      refine ⟨?_, ih h.2 (by omega)⟩
      have := of_decide_eq_true h.1
      simp
      omega
    · rw [if_neg hc] at h ⊢
      by_cases hws : isPySpace c = true
      · rw [if_pos hws] at h ⊢
        exact ih h hle
      · rw [if_neg (by simpa using hws)] at h ⊢
        exact h

/-- The scanner accepts every suffix with a zero budget. -/
theorem wsRunOkAux_suffix : ∀ {l : List Char} {k : Nat} {s : List Char},
    wsRunOkAux l k = true → s <:+ l → wsRunOkAux s 0 = true := by
  intro l
  induction l with
  | nil =>
    intro k s _ hs
    obtain ⟨t, ht⟩ := hs
    have := List.append_eq_nil.mp ht
    rw [this.2]
    rfl
  | cons c rest ih =>
    intro k s h hs
    obtain ⟨t, ht⟩ := hs
    cases t with
    | nil =>
      rw [List.nil_append] at ht
      subst ht
      exact wsRunOkAux_mono h (Nat.zero_le k)
    | cons d ds =>
      injection ht with h1 h2
      unfold wsRunOkAux at h
      by_cases hc : c = '\n'
      · rw [if_pos hc, Bool.and_eq_true] at h
        exact ih h.2 ⟨ds, h2⟩
      · rw [if_neg hc] at h
        by_cases hws : isPySpace c = true
        · rw [if_pos hws] at h
          exact ih h ⟨ds, h2⟩
        · rw [if_neg (by simpa using hws)] at h
          exact ih h ⟨ds, h2⟩

/-- Accepted scans bound the newline count of whitespace-only prefixes. -/
theorem wsRunOkAux_count_pre : ∀ {w s : List Char} {k : Nat},
    wsRunOkAux s k = true → k ≤ 2 → w <+: s → (∀ c ∈ w, isPySpace c = true) →
    w.count '\n' + k ≤ 2 := by
  intro w
  induction w with
  | nil => intro s k _ hk _ _; simp; omega
  | cons c rest ih =>
    intro s k h hk hp hws
    obtain ⟨t, ht⟩ := hp
    cases s with
    | nil => cases ht
    | cons d ds =>
      rw [List.cons_append] at ht
      injection ht with h1 h2
      subst h1
      unfold wsRunOkAux at h
      by_cases hc : c = '\n'
      · rw [if_pos hc, Bool.and_eq_true] at h
        have h3 := of_decide_eq_true h.1
        have h4 := ih h.2 (by omega) ⟨t, h2⟩ (fun d hd => hws d (by simp [hd]))
        subst hc
        have hcc : (('\n' :: rest).count '\n') = rest.count '\n' + 1 := by
          rw [List.count_cons]
          simp
        rw [hcc]
        omega
      · rw [if_neg hc] at h
        rw [if_pos (hws c (by simp))] at h
        have h4 := ih h hk ⟨t, h2⟩ (fun d hd => hws d (by simp [hd]))
        have hcc : ((c :: rest).count '\n') = rest.count '\n' := by
          rw [List.count_cons]
          simp [beq_iff_eq]
          intro he
          exact absurd he hc
        rw [hcc]
        omega

/-- `noWs3` restricts to occurrences. -/
theorem noWs3_mono {m l : List Char} (h : m <:+: l) (hn : noWs3 l) : noWs3 m :=
  fun w hw hws => hn w (sub_trans hw h) hws

/-- Scanner soundness for `noWs3`. -/
theorem noWs3_of_wsRunOk {l : List Char} (h : wsRunOkAux l 0 = true) : noWs3 l := by
  intro w hw hws
  obtain ⟨s, t, hst⟩ := hw
  have hsuf : w ++ t <:+ l := ⟨s, by rw [← hst]; simp⟩
  have h1 := wsRunOkAux_suffix h hsuf
  have h2 := wsRunOkAux_count_pre h1 (by omega) ⟨t, rfl⟩ hws
  omega

/-- A whitespace-only prefix of the stripped-lines output pulls back to a
whitespace-only prefix of the input with at least as many newlines. -/
theorem stripLines_ws_pre : ∀ (m w : List Char), (∀ c ∈ w, isPySpace c = true) →
    w <+: stripLines m →
    ∃ w2, (∀ c ∈ w2, isPySpace c = true) ∧ w2 <+: m ∧
      w.count '\n' ≤ w2.count '\n' := by
  intro m w hws hp
  rw [stripLines_unfold] at hp
  cases hw : w with
  | nil => exact ⟨[], by simp, ⟨m, rfl⟩, by simp⟩
  | cons e es =>
    subst hw
    cases hA : pyStrip (m.takeWhile (fun c => !(c = '\n'))) with
    | cons a as =>
      exfalso
      rw [hA] at hp
      obtain ⟨t, ht⟩ := hp
      rw [List.cons_append, List.cons_append] at ht
      injection ht with h1 _
      have hst := pyStrip_stripped (m.takeWhile (fun c => !(c = '\n')))
      rw [hA] at hst
      unfold strippedB at hst
      simp only [List.isEmpty_cons, Bool.false_or, Bool.and_eq_true,
        Bool.not_eq_true'] at hst
      have hews := hws e (by simp)
      rw [h1] at hews
      rw [List.headD_cons] at hst
      rw [hst.1] at hews
      cases hews
    | nil =>
      rw [hA, List.nil_append] at hp
      have hline_ws := allws_of_pyStrip_nil hA
      have hsplit : m.takeWhile (fun c => !(c = '\n')) ++
          m.dropWhile (fun c => !(c = '\n')) = m :=
        List.takeWhile_append_dropWhile (p := fun c => !(c = '\n')) (l := m)
      cases hd : m.dropWhile (fun c => !(c = '\n')) with
      | nil =>
        rw [hd] at hp
        obtain ⟨t, ht⟩ := hp
        cases ht
      | cons d rest =>
        have hdn : d = '\n' := by
          rcases dropWhile_head_false (fun c => !(c = '\n')) ' ' m with hnil | hhd
          · rw [hnil] at hd; cases hd
          · rw [hd, List.headD_cons] at hhd
            simpa using hhd
        subst hdn
        rw [hd] at hp
        obtain ⟨t, ht⟩ := hp
        rw [List.cons_append] at ht
        injection ht with h1 h2
        rw [hd] at hsplit
        have hlen : rest.length < m.length := by
          conv_rhs => rw [← hsplit]
          simp only [List.length_append, List.length_cons]
          omega
        obtain ⟨w4, hw4ws, hw4p, hw4c⟩ := stripLines_ws_pre rest es
          (fun c hc => hws c (by simp [hc])) ⟨t, h2⟩
        refine ⟨m.takeWhile (fun c => !(c = '\n')) ++ '\n' :: w4, ?_, ?_, ?_⟩
        · intro c hc
          rcases List.mem_append.mp hc with h | h
          · exact hline_ws c h
          · rcases List.mem_cons.mp h with rfl | h
            · decide
            · exact hw4ws c h
        · obtain ⟨z, hz⟩ := hw4p
          refine ⟨z, ?_⟩
          simp only [List.append_assoc, List.cons_append]
          rw [hz]
          exact hsplit
        · rw [h1]
          have hc1 : (('\n' :: es).count '\n') = es.count '\n' + 1 := by
            rw [List.count_cons]
            simp
          have hc2 : ((m.takeWhile (fun c => !(c = '\n')) ++ '\n' :: w4).count '\n') =
              (m.takeWhile (fun c => !(c = '\n'))).count '\n' + w4.count '\n' + 1 := by
            rw [List.count_append, List.count_cons]
            simp
            omega
          rw [hc1, hc2]
          omega
termination_by m => m.length
decreasing_by
  exact hlen

/-- Per-line stripping preserves the bounded-newline-run property. -/
theorem stripLines_noWs3 : ∀ m : List Char, noWs3 m → noWs3 (stripLines m) := by
  intro m h w hsub hws
  rw [stripLines_unfold] at hsub
  have hsplit : m.takeWhile (fun c => !(c = '\n')) ++
      m.dropWhile (fun c => !(c = '\n')) = m :=
    List.takeWhile_append_dropWhile (p := fun c => !(c = '\n')) (l := m)
  have hAsub : pyStrip (m.takeWhile (fun c => !(c = '\n'))) <:+: m := by
    refine sub_trans (pyStrip_sub _) ?_
    exact ⟨[], m.dropWhile (fun c => !(c = '\n')), by
      rw [List.nil_append]
      exact hsplit⟩
  cases hd : m.dropWhile (fun c => !(c = '\n')) with
  | nil =>
    rw [hd] at hsub
    have hsub2 : w <:+: pyStrip (m.takeWhile (fun c => !(c = '\n'))) := by
      simpa using hsub
    exact h w (sub_trans hsub2 hAsub) hws
  | cons d rest =>
    have hdn : d = '\n' := by
      rcases dropWhile_head_false (fun c => !(c = '\n')) ' ' m with hnil | hhd
      · rw [hnil] at hd; cases hd
      · rw [hd, List.headD_cons] at hhd
        simpa using hhd
    subst hdn
    rw [hd] at hsub hsplit
    have hlen : rest.length < m.length := by
      conv_rhs => rw [← hsplit]
      simp only [List.length_append, List.length_cons]
      omega
    have hrest_sub : rest <:+: m :=
      ⟨m.takeWhile (fun c => !(c = '\n')) ++ ['\n'], [], by
        simp only [List.append_assoc, List.singleton_append, List.append_nil]
        exact hsplit⟩
    rcases sub_append_cases hsub with h1 | h2 | ⟨w1, w2, hww, hn1, hn2, hs1, hp2⟩
    · exact h w (sub_trans h1 hAsub) hws
    · rcases sub_cons_cases h2 with hpre | hin
      · cases hwcase : w with
        | nil => simp [hwcase]
        | cons e es =>
          subst hwcase
          obtain ⟨t, ht⟩ := hpre
          rw [List.cons_append] at ht
          injection ht with h3 h4
          obtain ⟨w4, hw4ws, hw4p, hw4c⟩ := stripLines_ws_pre rest es
            (fun c hc => hws c (by simp [hc])) ⟨t, h4⟩
          have hnlsub : ('\n' :: w4) <:+: m := by
            obtain ⟨z, hz⟩ := hw4p
            refine ⟨m.takeWhile (fun c => !(c = '\n')), z, ?_⟩
            simp only [List.append_assoc, List.cons_append]
            rw [hz]
            exact hsplit
          have hcount := h ('\n' :: w4) hnlsub (by
            intro c hc
            rcases List.mem_cons.mp hc with rfl | hcm
            · decide
            · exact hw4ws c hcm)
          rw [h3]
          have hc1 : (('\n' :: es).count '\n') = es.count '\n' + 1 := by
            rw [List.count_cons]; simp
          have hc2 : (('\n' :: w4).count '\n') = w4.count '\n' + 1 := by
            rw [List.count_cons]; simp
          rw [hc1]
          rw [hc2] at hcount
          omega
      · exact stripLines_noWs3 rest (noWs3_mono hrest_sub h) w hin hws
    · exfalso
      cases hA : pyStrip (m.takeWhile (fun c => !(c = '\n'))) with
      | nil =>
        rw [hA] at hs1
        obtain ⟨z, hz⟩ := hs1
        have := List.append_eq_nil.mp hz
        exact hn1 this.2
      | cons a as =>
        have hst := pyStrip_stripped (m.takeWhile (fun c => !(c = '\n')))
        rw [hA] at hst
        unfold strippedB at hst
        simp only [List.isEmpty_cons, Bool.false_or, Bool.and_eq_true,
          Bool.not_eq_true'] at hst
        rw [hA] at hs1
        have hlast := suf_getLastD hs1 hn1 ' '
        obtain ⟨init, e, hcat⟩ := exists_concat hn1
        have hemem : e ∈ w := by
          rw [hww, hcat]
          simp
        have hews := hws e hemem
        rw [hcat, List.getLastD_concat] at hlast
        rw [hlast] at hews
        rw [hews] at hst
        exact absurd hst.2 (by simp)
termination_by m => m.length
decreasing_by
  exact hlen

/-- The stripped-lines output starts with a newline or a non-whitespace
character (if nonempty). -/
theorem stripLines_firstOk (m : List Char) : firstOk (stripLines m) := by
  rw [stripLines_unfold]
  cases hA : pyStrip (m.takeWhile (fun c => !(c = '\n'))) with
  | cons a as =>
    have hst := pyStrip_stripped (m.takeWhile (fun c => !(c = '\n')))
    rw [hA] at hst
    unfold strippedB at hst
    simp only [List.isEmpty_cons, Bool.false_or, Bool.and_eq_true,
      Bool.not_eq_true'] at hst
    refine Or.inr (Or.inr ?_)
    rw [List.cons_append, List.headD_cons]
    rw [List.headD_cons] at hst
    exact hst.1
  | nil =>
    rw [List.nil_append]
    cases hd : m.dropWhile (fun c => !(c = '\n')) with
    | nil => exact Or.inl rfl
    | cons d rest => exact Or.inr (Or.inl (by rw [List.headD_cons])) |>.imp id (fun h => h)

/-- A two-character occurrence straddling an append boundary splits into
its two characters. -/
theorem pair_split {x y : Char} {w1 w2 : List Char} (h : w1 ++ w2 = [x, y])
    (h1 : w1 ≠ []) (h2 : w2 ≠ []) : w1 = [x] ∧ w2 = [y] := by
  cases w1 with
  | nil => exact absurd rfl h1
  | cons a as =>
    rw [List.cons_append] at h
    injection h with ha hrest
    subst ha
    cases as with
    | nil =>
      rw [List.nil_append] at hrest
      exact ⟨rfl, hrest⟩
    | cons b bs =>
      rw [List.cons_append] at hrest
      injection hrest with hb hrest2
      exact absurd (List.append_eq_nil.mp hrest2).2 h2

/-- The stripped-lines output has clean newline neighborhoods, whatever
the input. -/
theorem stripLines_nlPairOk : ∀ m : List Char, nlPairOk (stripLines m) := by
  intro m
  have hnomem : ∀ c ∈ pyStrip (m.takeWhile (fun c => !(c = '\n'))), ¬ c = '\n' := by
    intro c hc
    have h1 : c ∈ m.takeWhile (fun c => !(c = '\n')) := mem_of_sub (pyStrip_sub _) hc
    have h2 := mem_takeWhile_pred h1
    simpa using h2
  have hstA := pyStrip_stripped (m.takeWhile (fun c => !(c = '\n')))
  constructor
  · intro c hc
    rw [stripLines_unfold] at hc
    cases hd : m.dropWhile (fun c => !(c = '\n')) with
    | nil =>
      rw [hd] at hc
      exfalso
      have h2 : ('\n' : Char) ∈ pyStrip (m.takeWhile (fun c => !(c = '\n'))) := by
        have hc2 : [c, '\n'] <:+: pyStrip (m.takeWhile (fun c => !(c = '\n'))) := by
          simpa using hc
        exact mem_of_sub hc2 (by simp)
      exact hnomem _ h2 rfl
    | cons d rest =>
      have hdn : d = '\n' := by
        rcases dropWhile_head_false (fun c => !(c = '\n')) ' ' m with hnil | hhd
        · rw [hnil] at hd; cases hd
        · rw [hd, List.headD_cons] at hhd
          simpa using hhd
      subst hdn
      rw [hd] at hc
      rcases sub_append_cases hc with h1 | h2 | ⟨w1, w2, hww, hn1, hn2, hs1, hp2⟩
      · exfalso
        exact hnomem '\n' (mem_of_sub h1 (by simp)) rfl
      · rcases sub_cons_cases h2 with hpre | hin
        · obtain ⟨t, ht⟩ := hpre
          rw [List.cons_append] at ht
          injection ht with h3 _
          exact Or.inl h3
        · exact (stripLines_nlPairOk rest).1 c hin
      · obtain ⟨hw1, hw2⟩ := pair_split hww.symm hn1 hn2
        subst hw1
        cases hA : pyStrip (m.takeWhile (fun c => !(c = '\n'))) with
        | nil =>
          rw [hA] at hs1
          obtain ⟨z, hz⟩ := hs1
          exact absurd (List.append_eq_nil.mp hz).2 (by simp)
        | cons a as =>
          rw [hA] at hstA hs1
          unfold strippedB at hstA
          simp only [List.isEmpty_cons, Bool.false_or, Bool.and_eq_true,
            Bool.not_eq_true'] at hstA
          have hlast := suf_getLastD hs1 (by simp) ' '
          have hceq : ([c] : List Char).getLastD ' ' = c := rfl
          rw [hceq] at hlast
          refine Or.inr ?_
          rw [hlast]
          exact hstA.2
  · intro c hc
    rw [stripLines_unfold] at hc
    cases hd : m.dropWhile (fun c => !(c = '\n')) with
    | nil =>
      rw [hd] at hc
      exfalso
      have h2 : ('\n' : Char) ∈ pyStrip (m.takeWhile (fun c => !(c = '\n'))) := by
        have hc2 : ['\n', c] <:+: pyStrip (m.takeWhile (fun c => !(c = '\n'))) := by
          simpa using hc
        exact mem_of_sub hc2 (by simp)
      exact hnomem _ h2 rfl
    | cons d rest =>
      have hdn : d = '\n' := by
        rcases dropWhile_head_false (fun c => !(c = '\n')) ' ' m with hnil | hhd
        · rw [hnil] at hd; cases hd
        · rw [hd, List.headD_cons] at hhd
          simpa using hhd
      subst hdn
      rw [hd] at hc
      rcases sub_append_cases hc with h1 | h2 | ⟨w1, w2, hww, hn1, hn2, hs1, hp2⟩
      · exfalso
        exact hnomem '\n' (mem_of_sub h1 (by simp)) rfl
      · rcases sub_cons_cases h2 with hpre | hin
        · obtain ⟨t, ht⟩ := hpre
          rw [List.cons_append] at ht
          injection ht with h3 h4
          have hfo := stripLines_firstOk rest
          cases hS : stripLines rest with
          | nil =>
            rw [hS] at h4
            cases h4
          | cons s ss =>
            rw [hS] at h4
            injection h4 with h5 _
            rcases hfo with he | hn | hok
            · rw [hS] at he; cases he
            · rw [hS, List.headD_cons] at hn
              exact Or.inl (by rw [← h5] at hn; exact hn)
            · rw [hS, List.headD_cons] at hok
              exact Or.inr (by rw [← h5] at hok; exact hok)
        · exact (stripLines_nlPairOk rest).2 c hin
      · obtain ⟨hw1, hw2⟩ := pair_split hww.symm hn1 hn2
        subst hw1
        exfalso
        exact hnomem '\n' (mem_of_sub (sub_of_suf hs1) (by simp)) rfl
termination_by m => m.length
decreasing_by
  all_goals
    (conv_rhs => rw [← List.takeWhile_append_dropWhile (p := fun c => !(c = '\n')) (l := m)])
  all_goals rw [hd]
  all_goals simp only [List.length_append, List.length_cons]
  all_goals omega

/-- Per-line stripping preserves the absence of doubled spaces. -/
theorem stripLines_noDouble : ∀ m : List Char, noTwoSpaces m →
    noTwoSpaces (stripLines m) := by
  intro m h hsub
  have hAself : pyStrip (m.takeWhile (fun c => !(c = '\n'))) <:+: m := by
    refine sub_trans (pyStrip_sub _) ?_
    exact ⟨[], m.dropWhile (fun c => !(c = '\n')), by
      rw [List.nil_append]
      exact List.takeWhile_append_dropWhile (p := fun c => !(c = '\n')) (l := m)⟩
  rw [stripLines_unfold] at hsub
  cases hd : m.dropWhile (fun c => !(c = '\n')) with
  | nil =>
    rw [hd] at hsub
    refine h (sub_trans ?_ hAself)
    simpa using hsub
  | cons d rest =>
    have hdn : d = '\n' := by
      rcases dropWhile_head_false (fun c => !(c = '\n')) ' ' m with hnil | hhd
      · rw [hnil] at hd; cases hd
      · rw [hd, List.headD_cons] at hhd
        simpa using hhd
    subst hdn
    rw [hd] at hsub
    have hrest_sub : rest <:+: m :=
      ⟨m.takeWhile (fun c => !(c = '\n')) ++ ['\n'], [], by
        simp only [List.append_assoc, List.singleton_append, List.append_nil]
        rw [← hd]
        exact List.takeWhile_append_dropWhile (p := fun c => !(c = '\n')) (l := m)⟩
    rcases sub_append_cases hsub with h1 | h2 | ⟨w1, w2, hww, hn1, hn2, hs1, hp2⟩
    · exact h (sub_trans h1 hAself)
    · rcases sub_cons_cases h2 with hpre | hin
      · obtain ⟨t, ht⟩ := hpre
        rw [List.cons_append] at ht
        injection ht with h3 _
        cases h3
      · exact stripLines_noDouble rest (noTwoSpaces_mono hrest_sub h) hin
    · obtain ⟨hw1, hw2⟩ := pair_split hww.symm hn1 hn2
      subst hw2
      obtain ⟨t, ht⟩ := hp2
      rw [List.cons_append] at ht
      injection ht with h3 _
      cases h3
termination_by m => m.length
decreasing_by
  (conv_rhs => rw [← List.takeWhile_append_dropWhile (p := fun c => !(c = '\n')) (l := m)])
  rw [hd]
  simp only [List.length_append, List.length_cons]
  omega

/-- Every `_clean_whitespace` output satisfies the shape invariant. -/
theorem cleanedShape_clean (l : List Char) : cleanedShape (clean_whitespace l) := by
  refine ⟨?_, ?_, ?_, pyStrip_stripped _⟩
  · exact noTwoSpaces_mono (pyStrip_sub _)
      (stripLines_noDouble _ (collapseNewlines_noDouble _ (collapseSpaces_noDouble l)))
  · exact nlPairOk_mono (pyStrip_sub _) (stripLines_nlPairOk _)
  · have h1 : wsRunOkAux (collapseNewlines (collapseSpaces l)) 0 = true := by
      refine collapseNewlines_wsRunOk _ 0 ?_
      have := Nat.min_le_left 2
        (((collapseSpaces l).takeWhile isPySpace).count '\n')
      omega
    have h2 := noWs3_of_wsRunOk h1
    have h3 := noWs3_mono (pyStrip_sub _) (stripLines_noWs3 _ h2)
    intro hc
    have h4 := h3 ['\n', '\n', '\n'] hc (by decide)
    have h5 : (['\n', '\n', '\n'] : List Char).count '\n' = 3 := by decide
    omega

/-- Claim C4: `_clean_whitespace` is idempotent — applying it twice gives
the same result as applying it once, for every input string. -/
theorem clean_whitespace_idempotent (l : List Char) :
    clean_whitespace (clean_whitespace l) = clean_whitespace l :=
  clean_whitespace_eq_self (cleanedShape_clean l)

/-- Claim C10: every text the extractor returns successfully is normalized:
it has at least 10 characters, stripping it changes nothing, it contains
no two consecutive spaces and no three consecutive newlines, and no line
of it begins or ends with a space. -/
theorem extractor_output_normalized (title content t : List Char)
    (h : extract_main_content title content = .ok t) :
    10 ≤ t.length ∧ pyStrip t = t ∧ noTwoSpaces t ∧ noTripleNl t ∧
      ∀ li ∈ pySplit '\n' t, li.headD 'x' ≠ ' ' ∧ li.getLastD 'x' ≠ ' ' := by
  unfold extract_main_content at h
  by_cases hce : content = []
  · rw [if_pos hce] at h; cases h
  · rw [if_neg hce] at h
    dsimp only at h
    by_cases hguard : clean_whitespace
        (if title ≠ [] ∧ pyStrip title ≠ [] then
          remove_html_tags title ++ "\n\n".data ++ remove_html_tags content
        else remove_html_tags content) = [] ∨
      (pyStrip (clean_whitespace
        (if title ≠ [] ∧ pyStrip title ≠ [] then
          remove_html_tags title ++ "\n\n".data ++ remove_html_tags content
        else remove_html_tags content))).length < 10
    · rw [if_pos hguard] at h
      cases h
    · rw [if_neg hguard] at h
      injection h with ht
      subst ht
      have hshape : cleanedShape (clean_whitespace
          (if title ≠ [] ∧ pyStrip title ≠ [] then
            remove_html_tags title ++ "\n\n".data ++ remove_html_tags content
          else remove_html_tags content)) := cleanedShape_clean _
      obtain ⟨hs1, hs2, hs3, hs4⟩ := hshape
      set t := clean_whitespace
        (if title ≠ [] ∧ pyStrip title ≠ [] then
          remove_html_tags title ++ "\n\n".data ++ remove_html_tags content
        else remove_html_tags content) with hteq
      have hstr : pyStrip t = t := pyStrip_eq_self hs4
      have hlen : 10 ≤ t.length := by
        rw [not_or, not_lt] at hguard
        rw [hstr] at hguard
        exact hguard.2
      refine ⟨hlen, hstr, hs1, hs3, ?_⟩
      intro li hli
      have hlst := lines_stripped t hs2 (firstOk_of_stripped hs4)
        (lastOk_of_stripped hs4) li hli
      have hlis : strippedB li = true := by
        rw [← hlst]
        exact pyStrip_stripped li
      cases li with
      | nil => exact ⟨by decide, by decide⟩
      | cons c cs =>
        unfold strippedB at hlis
        simp only [List.isEmpty_cons, Bool.false_or, Bool.and_eq_true,
          Bool.not_eq_true'] at hlis
        constructor
        · rw [List.headD_cons]
          intro hcsp
          rw [List.headD_cons, hcsp] at hlis
          exact absurd hlis.1 (by decide)
        · intro hcsp
          have hdflt : (c :: cs).getLastD ' ' = (c :: cs).getLastD 'x' := by
            rw [List.getLastD_cons, List.getLastD_cons]
          rw [hdflt, hcsp] at hlis
          exact absurd hlis.2 (by decide)

/-- Concrete instantiation of `extractor_output_normalized` on a plain
16-character document with no title. -/
theorem extractor_output_normalized_witness :
    extract_main_content [] "0123456789abcdef".data = .ok "0123456789abcdef".data ∧
      (10 ≤ ("0123456789abcdef".data).length ∧
        pyStrip "0123456789abcdef".data = "0123456789abcdef".data ∧
        noTwoSpaces "0123456789abcdef".data ∧ noTripleNl "0123456789abcdef".data ∧
        ∀ li ∈ pySplit '\n' "0123456789abcdef".data,
          li.headD 'x' ≠ ' ' ∧ li.getLastD 'x' ≠ ' ') :=
  ⟨by decide, extractor_output_normalized [] "0123456789abcdef".data
    "0123456789abcdef".data (by decide)⟩
